import Mathlib

/-!
# Verification of the vault-mind link-resolution and graph-analysis engine

This file gives a shallow embedding, in Lean 4, of the core analysis and
repair-planning functions of the vault-mind repository:

* the link analyzer (the TypeScript function analyzeLinks together with its
  inner resolveLink and the structural-path classifier),
* the graph analyzer (analyzeGraph with findClusters and findBridges),
* the repair planner (fixBrokenLinks with levenshtein and findBestMatch,
  and the action merger deduplicateActions of generateFixPlan),

and proves, or refutes, the specification claims about them.

Strings are modelled with Lean String (a structure holding a list of
characters); the JavaScript string operations used by the code (toLowerCase,
trim, endsWith, slice, indexOf, path.basename) are re-implemented below on the
character list, restricted to ASCII where JavaScript is Unicode-aware, which
is faithful on every input appearing in the development.  JavaScript Maps and
Sets are modelled by association lists and by insertion-order deduplicated
lists.  Ratios (connectivity scores) are modelled with ℚ, with the source's
explicit division-by-zero guards reproduced.
-/

namespace VaultMind

/-! ## Character and string primitives (models of the JS operations used) -/

/-- ASCII model of JavaScript toLowerCase on one character. -/
def lowerChar (c : Char) : Char :=
  if 65 ≤ c.toNat ∧ c.toNat ≤ 90 then Char.ofNat (c.toNat + 32) else c

/-- ASCII model of the JavaScript whitespace class (used by trim and \s). -/
def isJsWs (c : Char) : Bool :=
  c = ' ' ∨ c = '\t' ∨ c = '\n' ∨ c = '\r' ∨ c = '\x0b' ∨ c = '\x0c'

/-- Model of JS String.prototype.toLowerCase (character-wise, ASCII). -/
def lowerStr (s : String) : String := ⟨s.data.map lowerChar⟩

/-- Model of JS String.prototype.includes for a single character. -/
def containsChar (s : String) (c : Char) : Bool := s.data.contains c

/-- Model of JS String.prototype.endsWith. -/
def strEndsWith (s suf : String) : Bool := suf.data.isSuffixOf s.data

/-- Model of JS String.prototype.startsWith. -/
def strStartsWith (s pre : String) : Bool := pre.data.isPrefixOf s.data

/-- Model of JS s.slice(0, s.length - n) (drop the last n characters). -/
def dropRightStr (s : String) (n : Nat) : String :=
  ⟨s.data.take (s.data.length - n)⟩

/-- Model of the JS regex replace /\.md$/ → "" used throughout the source. -/
def stripMd (s : String) : String :=
  if strEndsWith s ".md" then dropRightStr s 3 else s

/-- Model of JS String.prototype.trim. -/
def trimStr (s : String) : String :=
  ⟨((s.data.dropWhile isJsWs).reverse.dropWhile isJsWs).reverse⟩

/-- The part of the string before the first hash character: models
target.slice(0, target.indexOf(hash)). -/
def takeUntilHash (s : String) : String := ⟨s.data.takeWhile (fun c => c ≠ '#')⟩

/-- Model of Node path.basename(p) on POSIX paths: the component after the
last slash.  (Vault paths and link targets never end in a slash.) -/
def posixBasename (s : String) : String :=
  ⟨(s.data.reverse.takeWhile (fun c => c ≠ '/')).reverse⟩

/-- Model of Node path.basename(p, ".md"): basename, with a trailing ".md"
stripped unless the basename is exactly ".md". -/
def basenameMd (p : String) : String :=
  let b := posixBasename p
  if strEndsWith b ".md" && b ≠ ".md" then dropRightStr b 3 else b

/-- Model of the JS regex replace /\\/g → "/" (backslash normalization). -/
def slashNormalize (s : String) : String :=
  ⟨s.data.map (fun c => if c = '\\' then '/' else c)⟩

/-- Insertion-order deduplication: the semantics of iterating a JS Set. -/
def dedupFirstAux {α : Type} [DecidableEq α] (seen : List α) : List α → List α
  | [] => []
  | a :: rest =>
      if a ∈ seen then dedupFirstAux seen rest
      else a :: dedupFirstAux (a :: seen) rest

/-- The list with later duplicates removed (JS Set insertion order). -/
def dedupFirst {α : Type} [DecidableEq α] (l : List α) : List α :=
  dedupFirstAux [] l

/-- The canonical relative path a path-style link target denotes: the target
itself when it already carries the .md extension, else with .md appended. -/
def ensureMd (t : String) : String :=
  if strEndsWith t ".md" then t else t ++ ".md"

/-! ## The document model (src/types.ts VaultFile, fields used by the core) -/

/-- One scanned document: the fields of the TypeScript VaultFile interface
consumed by the analyzers and fixers under verification (path/stats/
frontmatter are not read by them). -/
structure VaultFile where
  relativePath : String
  content : String
  wordCount : Nat
  wikilinks : List String
deriving DecidableEq

/-! ## The link analyzer (src/analyzers/links.ts) -/

/-- The directory prefixes expected to hold structurally-orphaned files. -/
def STRUCTURAL_DIRS : List String :=
  ["memory/", "memory\\", "reports/", "reports\\", "templates/", "templates\\",
   "skills/", "skills\\", "docs/", "docs\\", "research/", "research\\"]

/-- isStructuralPath from src/analyzers/links.ts. -/
def isStructuralPath (relativePath : String) : Bool :=
  STRUCTURAL_DIRS.any (fun dir =>
    strStartsWith (slashNormalize relativePath) (slashNormalize dir))

/-- The keys of the fileNamesLower map: lower-cased basenames (without .md)
and lower-cased extension-stripped relative paths of all files. -/
def fileNameKeysLower (files : List VaultFile) : List String :=
  files.flatMap (fun f =>
    [lowerStr (basenameMd f.relativePath), lowerStr (stripMd f.relativePath)])

/-- The fileRelativePaths set: each relative path as written and lower-cased. -/
def fileRelPaths (files : List VaultFile) : List String :=
  files.flatMap (fun f => [f.relativePath, lowerStr f.relativePath])

/-- The result record of the inner resolveLink function. -/
structure Resolution where
  valid : Bool
  pathStyle : Bool
  suggestedName : Option String
deriving DecidableEq

/-- The body of resolveLink on a target containing no hash character:
plain-name matching, then path-style matching, then the optional filesystem
probe.  (resolveLink recurses at most once, on the hash-free file part, so
the recursion is unfolded into this helper plus the dispatch below.) -/
def resolveLinkPlain (files : List VaultFile) (probe : Option (String → Bool))
    (target : String) : Resolution :=
  let targetLower := lowerStr target
  if (fileNameKeysLower files).contains targetLower then
    if containsChar target '/' then
      let withoutMd := if strEndsWith target ".md" then dropRightStr target 3 else target
      ⟨true, true, some (posixBasename withoutMd)⟩
    else ⟨true, false, none⟩
  else if containsChar target '/' then
    let withMd := if strEndsWith target ".md" then target else target ++ ".md"
    let withoutMd := if strEndsWith target ".md" then dropRightStr target 3 else target
    if (fileRelPaths files).contains withMd
        || (fileRelPaths files).contains (lowerStr withMd)
        || (fileRelPaths files).contains withoutMd
        || (fileRelPaths files).contains (lowerStr withoutMd) then
      ⟨true, true, some (posixBasename withoutMd)⟩
    else
      match probe with
      | some exists? =>
          if exists? withMd || exists? (withoutMd ++ ".md") then
            ⟨true, true, some (posixBasename withoutMd)⟩
          else ⟨false, false, none⟩
      | none => ⟨false, false, none⟩
  else ⟨false, false, none⟩

/-- resolveLink from analyzeLinks: section links split on the first hash,
an empty (trimmed) file part is a self-reference and always valid, and a
non-empty file part is resolved by the hash-free procedure. -/
def resolveLink (files : List VaultFile) (probe : Option (String → Bool))
    (target : String) : Resolution :=
  if containsChar target '#' then
    let filePart := trimStr (takeUntilHash target)
    if filePart = "" then ⟨true, false, none⟩
    else resolveLinkPlain files probe filePart
  else resolveLinkPlain files probe target

/-- The strings a single raw link contributes to the linkedTargets set:
the hash-stripped (or, for a bare section link, the containing file's
basename) target lower-cased, plus, for path-style targets, the lower-cased
basename of its extension-stripped form. -/
def linkTargetKeys (f : VaultFile) (l : String) : List String :=
  let normalizedTarget :=
    if containsChar l '#' then
      let filePart := trimStr (takeUntilHash l)
      if filePart = "" then basenameMd f.relativePath else filePart
    else l
  lowerStr normalizedTarget ::
    (if containsChar normalizedTarget '/' then
      [lowerStr (posixBasename (stripMd normalizedTarget))]
    else [])

/-- The linkedTargets set (as a list; only membership is ever queried). -/
def linkedTargets (files : List VaultFile) : List String :=
  files.flatMap (fun f => f.wikilinks.flatMap (linkTargetKeys f))

/-- The orphan condition of the orphan loop: neither the lower-cased basename
nor the lower-cased extension-stripped relative path occurs in linkedTargets. -/
def isOrphan (files : List VaultFile) (f : VaultFile) : Bool :=
  !(linkedTargets files).contains (lowerStr (basenameMd f.relativePath)) &&
  !(linkedTargets files).contains (lowerStr (stripMd f.relativePath))

/-- A brokenLinks entry. -/
structure BrokenLink where
  source : String
  target : String
deriving DecidableEq

/-- A pathStyleLinks entry. -/
structure PathStyleLink where
  source : String
  target : String
  suggestedName : String
deriving DecidableEq

/-- The report returned by analyzeLinks (the linksByFile map, unused by any
claim or downstream function under verification, is omitted). -/
structure LinkReport where
  totalLinks : Nat
  uniqueLinks : Nat
  brokenLinks : List BrokenLink
  orphanFiles : List String
  structuralOrphans : List String
  knowledgeOrphans : List String
  pathStyleLinks : List PathStyleLink
  connectivityScore : ℚ
  knowledgeConnectivity : ℚ

/-- analyzeLinks from src/analyzers/links.ts.  The optional vaultPath /
existsSync filesystem probe is abstracted as an optional predicate on the
candidate relative paths. -/
def analyzeLinks (files : List VaultFile) (probe : Option (String → Bool) := none) :
    LinkReport :=
  let allLinks := files.flatMap (fun f => f.wikilinks)
  let brokenLinks := files.flatMap (fun f =>
    f.wikilinks.filterMap (fun l =>
      if (resolveLink files probe l).valid then none
      else some ⟨f.relativePath, l⟩))
  let pathStyleLinks := files.flatMap (fun f =>
    f.wikilinks.filterMap (fun l =>
      let r := resolveLink files probe l
      if r.valid then
        match r.suggestedName with
        | some s => if r.pathStyle && s ≠ "" then some ⟨f.relativePath, l, s⟩ else none
        | none => none
      else none))
  let orphanFiles := (files.filter (fun f => isOrphan files f)).map (·.relativePath)
  let structuralOrphans :=
    (files.filter (fun f => isOrphan files f && isStructuralPath f.relativePath)).map
      (·.relativePath)
  let knowledgeOrphans :=
    (files.filter (fun f => isOrphan files f && !isStructuralPath f.relativePath)).map
      (·.relativePath)
  let connectivityScore : ℚ :=
    if files.length > 0 then
      ((files.length : ℚ) - orphanFiles.length) / files.length
    else 0
  let knowledgeFiles := files.filter (fun f => !isStructuralPath f.relativePath)
  let knowledgeConnectivity : ℚ :=
    if knowledgeFiles.length > 0 then
      ((knowledgeFiles.length : ℚ) - knowledgeOrphans.length) / knowledgeFiles.length
    else 0
  { totalLinks := allLinks.length
    uniqueLinks := (dedupFirst allLinks).length
    brokenLinks := brokenLinks
    orphanFiles := orphanFiles
    structuralOrphans := structuralOrphans
    knowledgeOrphans := knowledgeOrphans
    pathStyleLinks := pathStyleLinks
    connectivityScore := connectivityScore
    knowledgeConnectivity := knowledgeConnectivity }

/-! ## The graph analyzer (src/analyzers/graph.ts) -/

/-- Test for the daily-log path shape (the regex
memory/ then YYYY-MM-DD then .md, anchored at both ends). -/
def isDailyLogPath (p : String) : Bool :=
  strStartsWith p "memory/" &&
  (match p.data.drop 7 with
   | [y1, y2, y3, y4, h1, m1, m2, h2, d1, d2, c1, c2, c3] =>
       y1.isDigit && y2.isDigit && y3.isDigit && y4.isDigit && h1 = '-' &&
       m1.isDigit && m2.isDigit && h2 = '-' && d1.isDigit && d2.isDigit &&
       c1 = '.' && c2 = 'm' && c3 = 'd'
   | _ => false)

/-- categorizeFile from src/analyzers/graph.ts. -/
def categorizeFile (relativePath : String) : String :=
  if isDailyLogPath relativePath then "daily-log"
  else if strStartsWith relativePath "bank/entities/" then "entity"
  else if strStartsWith relativePath "bank/projects/" then "project"
  else if strStartsWith relativePath "bank/" then "bank"
  else if strStartsWith relativePath "memory/" then "memory"
  else "core"

/-- The fileNameToPath map: lower-cased basename to path.  A JS Map.set in a
loop lets the last file with a given basename win, hence the reversed find. -/
def fileNameToPath (files : List VaultFile) (name : String) : Option String :=
  (files.reverse.find? (fun f => lowerStr (basenameMd f.relativePath) == name)).map
    (·.relativePath)

/-- The targets of one file's resolved, non-self edges, in wikilink order. -/
def resolvedTargets (files : List VaultFile) (f : VaultFile) : List String :=
  f.wikilinks.filterMap (fun l =>
    match fileNameToPath files (lowerStr l) with
    | some tp => if tp ≠ f.relativePath then some tp else none
    | none => none)

/-- The adjacency set stored at key p (a JS Set: insertion-order, no dups). -/
def outAdj (files : List VaultFile) (p : String) : List String :=
  dedupFirst ((files.filter (fun f => f.relativePath == p)).flatMap
    (resolvedTargets files))

/-- The adjacency map of analyzeGraph, as an association list in key
insertion order. -/
def adjacencyOf (files : List VaultFile) : List (String × List String) :=
  (dedupFirst (files.map (·.relativePath))).map (fun p => (p, outAdj files p))

/-- Lookup in an association list modelling a JS Map (undefined becomes []). -/
def assocGet (u : List (String × List String)) (p : String) : List String :=
  ((u.find? (fun e => e.1 == p)).map (·.2)).getD []

/-- Model of undirected.get(key)?.add(val): append val to the set at key if
the key is present and val is not already there; otherwise do nothing. -/
def addNeighbor (u : List (String × List String)) (key val : String) :
    List (String × List String) :=
  u.map (fun e => if e.1 = key then (e.1, if val ∈ e.2 then e.2 else e.2 ++ [val]) else e)

/-- The undirected adjacency built by findClusters: keys are the file paths,
and every directed edge contributes both directions (each side only when the
node is a key). -/
def buildUndirected (files : List VaultFile)
    (adjacency : List (String × List String)) : List (String × List String) :=
  let init := (dedupFirst (files.map (·.relativePath))).map
    (fun p => (p, ([] : List String)))
  adjacency.foldl (fun u e =>
    e.2.foldl (fun u2 t => addNeighbor (addNeighbor u2 e.1 t) t e.1) u) init

/-- The neighbor loop of the BFS: each unvisited neighbor is marked visited
and pushed on the queue (JS checks and marks one neighbor at a time). -/
def enqueueFold (ns visited queue : List String) : List String × List String :=
  ns.foldl
    (fun (acc : List String × List String) n =>
      if n ∈ acc.1 then acc else (acc.1 ++ [n], acc.2 ++ [n]))
    (visited, queue)

/-- One round of the BFS while-loop of findClusters: pop the queue head,
append it to the cluster, and mark-and-enqueue its unvisited neighbors.  The
fuel argument only bounds the iteration count; every call in this file
supplies enough fuel for the queue to empty first (bfsAux_spec below). -/
def bfsAux (nb : String → List String) :
    Nat → List String → List String → List String → List String × List String
  | 0, visited, _, cluster => (visited, cluster)
  | _ + 1, visited, [], cluster => (visited, cluster)
  | fuel + 1, visited, c :: rest, cluster =>
      let step := enqueueFold (nb c) visited rest
      bfsAux nb fuel step.1 step.2 (cluster ++ [c])

/-- One iteration of the outer loop of findClusters: skip a visited file,
else run a BFS from it and append the resulting cluster. -/
def clusterStep (nb : String → List String) (fuel : Nat)
    (acc : List String × List (List String)) (f : VaultFile) :
    List String × List (List String) :=
  if f.relativePath ∈ acc.1 then acc
  else
    let r := bfsAux nb fuel (acc.1 ++ [f.relativePath]) [f.relativePath] []
    (r.1, acc.2 ++ [r.2])

/-- findClusters from src/analyzers/graph.ts: BFS over the undirected
adjacency, every file starting a new cluster unless already visited. -/
def findClusters (files : List VaultFile)
    (adjacency : List (String × List String)) : List (List String) :=
  let undirected := buildUndirected files adjacency
  let nb := fun p => assocGet undirected p
  let fuel := files.length + 1
  (files.foldl (clusterStep nb fuel) ([], [])).2

/-- findBridges from src/analyzers/graph.ts: for each node with at least one
outgoing adjacency entry, remove it (and the edges touching it) and compare
the recomputed cluster count with the original. -/
def findBridges (files : List VaultFile) (adjacency : List (String × List String))
    (originalClusters : List (List String)) : List String :=
  if originalClusters.length ≤ 1 ∧ files.length ≤ 1 then []
  else
    let connectedNodes :=
      files.filter (fun f => (assocGet adjacency f.relativePath).length > 0)
    (connectedNodes.filter (fun f =>
      let remaining := files.filter (fun g => g.relativePath ≠ f.relativePath)
      let filteredAdj := adjacency.filterMap (fun e =>
        if e.1 = f.relativePath then none
        else some (e.1, e.2.filter (fun t => t ≠ f.relativePath)))
      (findClusters remaining filteredAdj).length > originalClusters.length)).map
      (·.relativePath)

/-- The clusters recomputed by findBridges after simulating the removal of
the node p: p's file is dropped, its adjacency entry deleted, and p filtered
out of every remaining adjacency set. -/
def removalClusters (files : List VaultFile) (p : String) : List (List String) :=
  findClusters (files.filter (fun g => g.relativePath ≠ p))
    ((adjacencyOf files).filterMap (fun e =>
      if e.1 = p then none else some (e.1, e.2.filter (fun t => t ≠ p))))

/-- A graph node (id, outgoing wikilink count, path-shape category). -/
structure GraphNode where
  id : String
  linkCount : Nat
  category : String
deriving DecidableEq

/-- A directed edge of the graph. -/
structure Edge where
  source : String
  target : String
deriving DecidableEq

/-- The result of analyzeGraph (the hubs ranking, unused by any claim, is
omitted). -/
structure GraphData where
  nodes : List GraphNode
  edges : List Edge
  clusters : List (List String)
  bridges : List String

/-- The edge list of analyzeGraph: one edge per resolved non-self link. -/
def edgesOf (files : List VaultFile) : List Edge :=
  files.flatMap (fun f =>
    (resolvedTargets files f).map (fun tp => Edge.mk f.relativePath tp))

/-- analyzeGraph from src/analyzers/graph.ts: plain-basename edge resolution
with self-edges excluded, then clusters and bridges. -/
def analyzeGraph (files : List VaultFile) : GraphData :=
  let adjacency := adjacencyOf files
  let edges := edgesOf files
  let nodes := files.map (fun f =>
    GraphNode.mk f.relativePath f.wikilinks.length (categorizeFile f.relativePath))
  let clusters := findClusters files adjacency
  let bridges := findBridges files adjacency clusters
  ⟨nodes, edges, clusters, bridges⟩

/-! ## The repair planner (src/fixers/links.ts and src/fixers/index.ts) -/

/-- One row-update step of the two-row Levenshtein loop: walking along b with
pj = prev[j], diag = prev[j-1] and left = curr[j-1]. -/
def levRowAux (ca : Char) : List Char → List Nat → Nat → Nat → List Nat
  | [], _, _, _ => []
  | _ :: _, [], _, _ => []
  | b :: bs, pj :: prevTail, diag, left =>
      let cost := if ca = b then 0 else 1
      let cur := min (pj + 1) (min (left + 1) (diag + cost))
      cur :: levRowAux ca bs prevTail pj cur

/-- The outer row loop of levenshtein, i being the current row index. -/
def levLoop (bs : List Char) : List Char → List Nat → Nat → List Nat
  | [], prev, _ => prev
  | ca :: as, prev, i =>
      levLoop bs as (i :: levRowAux ca bs (prev.drop 1) (prev.headD 0) i) (i + 1)

/-- levenshtein from src/fixers/links.ts (two-row dynamic programming). -/
def levenshtein (a b : String) : Nat :=
  let la := a.data.length
  let lb := b.data.length
  if la = 0 then lb
  else if lb = 0 then la
  else (levLoop b.data a.data (List.range (lb + 1)) 1).getLastD 0

/-- Whitespace-run collapsing (the JS regex replace of \s+ by one space);
the flag records whether the previous character was whitespace. -/
def collapseWs : Bool → List Char → List Char
  | _, [] => []
  | prevWs, c :: rest =>
      if isJsWs c then
        if prevWs then collapseWs true rest else ' ' :: collapseWs true rest
      else c :: collapseWs false rest

/-- normalize from src/fixers/links.ts: lower-case, dashes and underscores to
spaces, whitespace runs collapsed, then trimmed. -/
def normalize (name : String) : String :=
  trimStr ⟨collapseWs false (name.data.map (fun c =>
    let c2 := lowerChar c
    if c2 = '-' ∨ c2 = '_' then ' ' else c2))⟩

/-- The candidate loop of findBestMatch, carrying the best match and its
distance (none standing for the initial Infinity).  The acceptance test
distance / maxLen < 0.4 is written 5 * d < 2 * maxLen; for maxLen = 0 this is
false, exactly as the JS NaN comparison is. -/
def findBestMatchAux (target : String) :
    List String → Option String → Option Nat → Option String
  | [], best, _ => best
  | n :: rest, best, bestScore =>
      if normalize target = normalize n then some n
      else
        let d := levenshtein (normalize target) (normalize n)
        let maxLen := max (normalize target).data.length (normalize n).data.length
        let better := match bestScore with | none => true | some b => decide (d < b)
        if 5 * d < 2 * maxLen ∧ better = true then
          findBestMatchAux target rest (some n) (some d)
        else findBestMatchAux target rest best bestScore

/-- findBestMatch from src/fixers/links.ts with the default 0.4 threshold. -/
def findBestMatch (target : String) (fileNames : List String) : Option String :=
  findBestMatchAux target fileNames none none

/-- Try to match the link-rewriting regex (open brackets, the literal target,
an optional pipe-alias free of closing brackets, close brackets) at the head
of s; on success return the alias (with its leading pipe) and the remainder. -/
def matchWikilinkAt (target : List Char) (s : List Char) :
    Option (Option (List Char) × List Char) :=
  match s with
  | '[' :: '[' :: rest =>
      if target.isPrefixOf rest then
        match rest.drop target.length with
        | ']' :: ']' :: rem => some (none, rem)
        | '|' :: arest =>
            let al := arest.takeWhile (fun c => c ≠ ']')
            match arest.drop al.length with
            | ']' :: ']' :: rem => some (some ('|' :: al), rem)
            | _ => none
        | _ => none
      else none
  | _ => none

/-- Left-to-right global replacement of the wikilink pattern, continuing
after each replacement (the JS g-flagged replace).  Each step consumes at
least one character, so fuel = length + 1 always suffices. -/
def rewriteScan (target corrected : List Char) : Nat → List Char → List Char
  | 0, s => s
  | _ + 1, [] => []
  | fuel + 1, c :: rest =>
      match matchWikilinkAt target (c :: rest) with
      | some (al, rem) =>
          ('[' :: '[' :: corrected) ++ al.getD [] ++
            (']' :: ']' :: rewriteScan target corrected fuel rem)
      | none => c :: rewriteScan target corrected fuel rest

/-- The rewrite of every [[target]] and [[target|alias]] occurrence into the
corrected name (the regex replace of fixBrokenLinks). -/
def rewriteWikilink (content target corrected : String) : String :=
  ⟨rewriteScan target.data corrected.data (content.data.length + 1) content.data⟩

/-- The category tag of a fix action. -/
inductive FixCategory
  | links
  | orphans
  | isolated
deriving DecidableEq

/-- A FixAction record (optional fields are Option, matching the TS type). -/
structure FixAction where
  category : FixCategory
  description : String
  filePath : String
  originalContent : Option String
  newContent : Option String
  createContent : Option String
  isCreate : Bool
deriving DecidableEq

instance : Inhabited FixAction :=
  ⟨⟨.links, "", "", none, none, none, false⟩⟩

/-- The stub body created for an unmatched broken target. -/
def stubContent (target : String) : String :=
  "# " ++ target ++ "\n\nTODO: Add content for " ++ target ++ ".\n"

/-- fixBrokenLinks from src/fixers/links.ts: per unique broken target decide
rewrite (best fuzzy match) or stub creation; per source file chain the
rewrites over its content, emitting an action when some rewrite changed it;
then append the stub creations. -/
def fixBrokenLinks (files : List VaultFile) (linkReport : LinkReport) :
    List FixAction :=
  let fileNames := files.map (fun f => basenameMd f.relativePath)
  let allBrokenTargets := dedupFirst (linkReport.brokenLinks.map (·.target))
  let stubsToCreate := allBrokenTargets.filter (fun t => findBestMatch t fileNames = none)
  let sources := dedupFirst (linkReport.brokenLinks.map (·.source))
  let rewriteActions := sources.filterMap (fun src =>
    (files.find? (fun f => f.relativePath == src)).bind (fun sourceFile =>
      let targets := dedupFirst
        ((linkReport.brokenLinks.filter (fun bl => bl.source == src)).map (·.target))
      let step := targets.foldl (fun (acc : String × Bool) t =>
        match findBestMatch t fileNames with
        | some corrected =>
            let newContent := rewriteWikilink acc.1 t corrected
            if newContent ≠ acc.1 then (newContent, true) else acc
        | none => acc) (sourceFile.content, false)
      if step.2 then
        some { category := .links
               description := "Rewrite broken wikilinks in " ++ src ++ ": " ++
                 String.intercalate ", "
                   ((targets.filter (fun t => (findBestMatch t fileNames).isSome)).map
                     (fun t => "[[" ++ t ++ "]] → [[" ++
                       (findBestMatch t fileNames).getD "" ++ "]]"))
               filePath := src
               originalContent := some sourceFile.content
               newContent := some step.1
               createContent := none
               isCreate := false }
      else none))
  rewriteActions ++ stubsToCreate.map (fun t =>
    { category := .links
      description := "Create stub file for broken link target: " ++ t
      filePath := t ++ ".md"
      originalContent := none
      newContent := none
      createContent := some (stubContent t)
      isCreate := true })

/-- deduplicateActions from src/fixers/index.ts (the merge step of
generateFixPlan, which feeds the concatenated fixer outputs through it):
creation actions are set aside untouched; non-creating actions are grouped by
file path in first-seen order; a group of one passes through; a larger group
is merged by starting from the first action's originalContent and overwriting
the running content with each action's (truthy) newContent in order,
concatenating the descriptions. -/
def deduplicateActions (actions : List FixAction) : List FixAction :=
  let creates := actions.filter (·.isCreate)
  let nonCreates := actions.filter (fun a => ¬ a.isCreate)
  let keys := dedupFirst (nonCreates.map (·.filePath))
  let merged := keys.map (fun fp =>
    let fileActions := nonCreates.filter (fun a => a.filePath == fp)
    if fileActions.length = 1 then fileActions.headD default
    else
      let content := fileActions.foldl (fun (c : Option String) a =>
        match a.newContent with
        | some s => if s ≠ "" then some s else c
        | none => c) (fileActions.headD default).originalContent
      { category := (fileActions.headD default).category
        description := String.intercalate "; " (fileActions.map (·.description))
        filePath := fp
        originalContent := (fileActions.headD default).originalContent
        newContent := content
        createContent := none
        isCreate := false })
  merged ++ creates

/-! ## Basic lemmas about the JS Set model -/

lemma mem_dedupFirstAux {α : Type} [DecidableEq α] (l : List α) :
    ∀ (seen : List α) (x : α), x ∈ dedupFirstAux seen l ↔ x ∈ l ∧ x ∉ seen := by
  induction l with
  | nil => intro seen x; simp [dedupFirstAux]
  | cons a rest ih =>
      intro seen x
      by_cases h : a ∈ seen
      · simp only [dedupFirstAux, if_pos h, ih, List.mem_cons]
        constructor
        · rintro ⟨hx, hs⟩; exact ⟨Or.inr hx, hs⟩
        · rintro ⟨hx | hx, hs⟩
          · exact absurd (hx ▸ h) hs
          · exact ⟨hx, hs⟩
      · simp only [dedupFirstAux, if_neg h, List.mem_cons, ih]
        constructor
        · rintro (rfl | ⟨hr, hn⟩)
          · exact ⟨Or.inl rfl, h⟩
          · exact ⟨Or.inr hr, fun hs => hn (Or.inr hs)⟩
        · rintro ⟨rfl | hr, hs⟩
          · exact Or.inl rfl
          · by_cases hxa : x = a
            · exact Or.inl hxa
            · exact Or.inr ⟨hr, fun hc => hc.elim hxa hs⟩

lemma nodup_dedupFirstAux {α : Type} [DecidableEq α] (l : List α) :
    ∀ seen : List α, (dedupFirstAux seen l).Nodup := by
  induction l with
  | nil => intro seen; simp [dedupFirstAux]
  | cons a rest ih =>
      intro seen
      by_cases h : a ∈ seen
      · simpa [dedupFirstAux, h] using ih seen
      · simp only [dedupFirstAux, if_neg h, List.nodup_cons]
        refine ⟨fun hmem => ?_, ih (a :: seen)⟩
        exact ((mem_dedupFirstAux rest (a :: seen) a).1 hmem).2 (List.mem_cons_self a seen)

lemma length_dedupFirstAux_le {α : Type} [DecidableEq α] (l : List α) :
    ∀ seen : List α, (dedupFirstAux seen l).length ≤ l.length := by
  induction l with
  | nil => intro seen; simp [dedupFirstAux]
  | cons a rest ih =>
      intro seen
      by_cases h : a ∈ seen
      · simp only [dedupFirstAux, if_pos h]
        exact le_trans (ih seen) (Nat.le_succ _)
      · simpa [dedupFirstAux, h] using ih (a :: seen)

lemma mem_dedupFirst {α : Type} [DecidableEq α] {l : List α} {x : α} :
    x ∈ dedupFirst l ↔ x ∈ l := by
  simp [dedupFirst, mem_dedupFirstAux]

lemma nodup_dedupFirst {α : Type} [DecidableEq α] (l : List α) :
    (dedupFirst l).Nodup := nodup_dedupFirstAux l []

lemma length_dedupFirst_le {α : Type} [DecidableEq α] (l : List α) :
    (dedupFirst l).length ≤ l.length := length_dedupFirstAux_le l []

lemma length_dedupFirst_eq_card {α : Type} [DecidableEq α] (l : List α) :
    (dedupFirst l).length = l.toFinset.card := by
  have h1 : (dedupFirst l).toFinset = l.toFinset := by
    ext x; simp [List.mem_toFinset, mem_dedupFirst]
  calc (dedupFirst l).length = (dedupFirst l).toFinset.card :=
        (List.toFinset_card_of_nodup (nodup_dedupFirst l)).symm
    _ = l.toFinset.card := by rw [h1]

/-! ## Claim C1: membership in orphanFiles -/

lemma mem_linkedTargets {files : List VaultFile} {x : String} :
    x ∈ linkedTargets files ↔
      ∃ g ∈ files, ∃ l ∈ g.wikilinks, x ∈ linkTargetKeys g l := by
  simp [linkedTargets, List.mem_flatMap]

lemma isOrphan_iff {files : List VaultFile} {f : VaultFile} :
    isOrphan files f = true ↔
      lowerStr (basenameMd f.relativePath) ∉ linkedTargets files ∧
      lowerStr (stripMd f.relativePath) ∉ linkedTargets files := by
  simp [isOrphan, List.elem_iff, List.contains]

lemma isOrphan_congr {files : List VaultFile} {f g : VaultFile}
    (h : f.relativePath = g.relativePath) : isOrphan files f = isOrphan files g := by
  simp [isOrphan, h]

/-- **C1** (amended claim, proved).  A document D is in orphanFiles returned
by analyzeLinks if and only if no document's normalized raw link target set —
including D's own — contains D's basename or D's extension-less relative path
(case-insensitive, section suffixes stripped, with a bare section link
contributing its containing file's own basename and path-style targets also
contributing their basename).  In particular a document referenced only by
its own links (a self-link, or a bare section link in its own body) is NOT an
orphan. -/
theorem orphanFiles_iff_unreferenced (files : List VaultFile)
    (probe : Option (String → Bool)) (f : VaultFile) (hf : f ∈ files) :
    f.relativePath ∈ (analyzeLinks files probe).orphanFiles ↔
      ∀ g ∈ files, ∀ l ∈ g.wikilinks,
        lowerStr (basenameMd f.relativePath) ∉ linkTargetKeys g l ∧
        lowerStr (stripMd f.relativePath) ∉ linkTargetKeys g l := by
  have horph : f.relativePath ∈ (analyzeLinks files probe).orphanFiles ↔
      isOrphan files f = true := by
    simp only [analyzeLinks, List.mem_map, List.mem_filter]
    constructor
    · rintro ⟨g, ⟨hg, hgo⟩, hrel⟩
      rw [isOrphan_congr hrel.symm]; exact hgo
    · intro ho; exact ⟨f, ⟨hf, ho⟩, rfl⟩
  rw [horph, isOrphan_iff]
  constructor
  · rintro ⟨h1, h2⟩ g hg l hl
    exact ⟨fun hmem => h1 (mem_linkedTargets.2 ⟨g, hg, l, hl, hmem⟩),
           fun hmem => h2 (mem_linkedTargets.2 ⟨g, hg, l, hl, hmem⟩)⟩
  · intro h
    constructor
    · intro hmem
      obtain ⟨g, hg, l, hl, hx⟩ := mem_linkedTargets.1 hmem
      exact (h g hg l hl).1 hx
    · intro hmem
      obtain ⟨g, hg, l, hl, hx⟩ := mem_linkedTargets.1 hmem
      exact (h g hg l hl).2 hx

/-- Witness for C1's amended theorem: in the two-document vault where only
B.md is referenced (by A.md), A.md is an orphan, by the theorem applied at a
concrete input. -/
theorem orphanFiles_iff_unreferenced_witness :
    "A.md" ∈ (analyzeLinks [⟨"A.md", "x", 1, ["B"]⟩, ⟨"B.md", "y", 1, []⟩]
      none).orphanFiles :=
  (orphanFiles_iff_unreferenced
      [⟨"A.md", "x", 1, ["B"]⟩, ⟨"B.md", "y", 1, []⟩] none
      ⟨"A.md", "x", 1, ["B"]⟩ (by decide)).2 (by decide)

/-- **C1** (counterexample).  The claim states that a document referenced
only by its own links is still an orphan: false.  A.md whose only wikilink is
the self-link A is not reported as an orphan (the linked-target set is built
from every document's links, A.md's own included), and likewise B.md whose
only link is the bare section link to its own body. -/
theorem analyzeLinks_selfLinked_not_orphan :
    (analyzeLinks [⟨"A.md", "[[A]]", 1, ["A"]⟩] none).orphanFiles = [] ∧
    (analyzeLinks [⟨"B.md", "[[#Sec]]", 1, ["#Sec"]⟩] none).orphanFiles = [] := by
  decide

/-! ## Claim C10: uniqueLinks counts distinct raw link strings -/

/-- **C10** (confirmed).  The uniqueLinks count returned by analyzeLinks is
the number of distinct raw wikilink target strings, compared case-sensitively
and without any normalization (the cardinality of the finite set of raw
strings), and consequently uniqueLinks ≤ totalLinks. -/
theorem analyzeLinks_uniqueLinks_distinct_raw (files : List VaultFile)
    (probe : Option (String → Bool)) :
    (analyzeLinks files probe).uniqueLinks =
      (files.flatMap (fun f => f.wikilinks)).toFinset.card ∧
    (analyzeLinks files probe).uniqueLinks ≤ (analyzeLinks files probe).totalLinks := by
  constructor
  · exact length_dedupFirst_eq_card _
  · exact length_dedupFirst_le _

/-! ## Claim C2: the merge step of generateFixPlan -/

/-- **C2** (code_bug evaluation).  The claim — and the source's own comment
inside deduplicateActions — say that merging several non-creating actions on
one file re-applies every constituent transformation on the evolving content,
so that no earlier edit is lost.  The code instead overwrites the running
content with each action's precomputed newContent.  At this input the first
action rewrites "ab" to "Xb" and the second, computed independently from the
same original, rewrites "ab" to "aY"; chaining the two transformations would
give "XY", but the merged action carries newContent "aY": the first edit is
lost (the descriptions are, as claimed, concatenated). -/
theorem deduplicateActions_drops_earlier_edit :
    deduplicateActions
      [⟨.links, "d1", "F.md", some "ab", some "Xb", none, false⟩,
       ⟨.orphans, "d2", "F.md", some "ab", some "aY", none, false⟩] =
      [⟨.links, "d1; d2", "F.md", some "ab", some "aY", none, false⟩] := by decide

/-! ## Claim C8: the typo-repair end-to-end scenario -/

/-- **C8** (confirmed).  With A.md containing the single link Allice and
Alice.md present with no inbound links, analyzeLinks reports exactly the one
broken link (A.md, Allice), and fixBrokenLinks proposes exactly one action:
a non-creating rewrite of A.md whose new content links Alice (the normalized
Levenshtein ratio 1/6 clears the 0.4 threshold), with no stub creation. -/
theorem fixBrokenLinks_typo_rewrites_not_stub :
    (analyzeLinks [⟨"A.md", "See [[Allice]] now.", 4, ["Allice"]⟩,
        ⟨"Alice.md", "Hi.", 1, []⟩] none).brokenLinks = [⟨"A.md", "Allice"⟩] ∧
    (fixBrokenLinks [⟨"A.md", "See [[Allice]] now.", 4, ["Allice"]⟩,
        ⟨"Alice.md", "Hi.", 1, []⟩]
      (analyzeLinks [⟨"A.md", "See [[Allice]] now.", 4, ["Allice"]⟩,
        ⟨"Alice.md", "Hi.", 1, []⟩] none)) =
      [{ category := .links
         description := "Rewrite broken wikilinks in A.md: [[Allice]] → [[Alice]]"
         filePath := "A.md"
         originalContent := some "See [[Allice]] now."
         newContent := some "See [[Alice]] now."
         createContent := none
         isCreate := false }] := by decide

/-! ## Claim C9: no-op fix actions -/

/-- **C9** (code_bug evaluation).  The claim says no fixer ever emits a
non-creating action whose newContent equals its originalContent.
fixBrokenLinks only checks that some intermediate rewrite changed the
content; on this input the two chained rewrites cancel: the broken link A in
S.md is first rewritten to the existing name "a " (an exact match after
normalization), which makes the content a single occurrence of the other
broken target, whose best fuzzy match rewrites the content back to the
original.  The emitted action has newContent = originalContent — a no-op. -/
theorem fixBrokenLinks_emits_noop_action :
    (fixBrokenLinks
        [⟨"S.md", "[[A]]m[[B]]", 1, ["A", "a ]]m[[B"]⟩,
         ⟨"a .md", "", 0, []⟩,
         ⟨"A]]m[[B.md", "", 0, []⟩]
        (analyzeLinks
          [⟨"S.md", "[[A]]m[[B]]", 1, ["A", "a ]]m[[B"]⟩,
           ⟨"a .md", "", 0, []⟩,
           ⟨"A]]m[[B.md", "", 0, []⟩] none)).map
      (fun a => (a.isCreate, a.filePath, a.originalContent, a.newContent)) =
      [(false, "S.md", some "[[A]]m[[B]]", some "[[A]]m[[B]]")] := by decide

/-! ## Claim C3: bridge detection, the counterexample -/

/-- **C3** (counterexample).  In the vault A → B ← C, node B.md has two
touching edges and its removal (with both edges) splits the single component
into two — the claim therefore requires B.md among the bridges — yet
analyzeGraph reports no bridges at all, because findBridges only considers
nodes with at least one OUTGOING edge as candidates.  (The last conjunct
recomputes the components of the B-less vault: two singletons.) -/
theorem analyzeGraph_misses_incoming_only_bridge :
    (analyzeGraph [⟨"A.md", "", 1, ["B"]⟩, ⟨"B.md", "", 0, []⟩,
        ⟨"C.md", "", 1, ["B"]⟩]).edges =
      [⟨"A.md", "B.md"⟩, ⟨"C.md", "B.md"⟩] ∧
    (analyzeGraph [⟨"A.md", "", 1, ["B"]⟩, ⟨"B.md", "", 0, []⟩,
        ⟨"C.md", "", 1, ["B"]⟩]).clusters.length = 1 ∧
    (analyzeGraph [⟨"A.md", "", 1, ["B"]⟩,
        ⟨"C.md", "", 1, ["B"]⟩]).clusters.length = 2 ∧
    (analyzeGraph [⟨"A.md", "", 1, ["B"]⟩, ⟨"B.md", "", 0, []⟩,
        ⟨"C.md", "", 1, ["B"]⟩]).bridges = [] := by decide

/-! ## Claim C4: section-link resolution -/

lemma containsChar_filePart_hash (t : String) :
    containsChar (trimStr (takeUntilHash t)) '#' = false := by
  rw [Bool.eq_false_iff]
  intro h
  have hm : '#' ∈ (trimStr (takeUntilHash t)).data := by
    simpa [containsChar, List.contains, List.elem_iff] using h
  simp only [trimStr, takeUntilHash] at hm
  rw [List.mem_reverse] at hm
  have hm2 := (List.dropWhile_sublist isJsWs).mem hm
  rw [List.mem_reverse] at hm2
  have hm3 := (List.dropWhile_sublist isJsWs).mem hm2
  have := List.mem_takeWhile_imp hm3
  simp at this

/-- **C4** (confirmed).  For every target containing a hash, resolution
splits on the first hash only: when the (trimmed) file-part is empty — a bare
section link — the link always resolves, for every document collection and
probe; and when the file-part is non-empty the link resolves exactly when the
file-part alone would resolve. -/
theorem resolveLink_section_split (files : List VaultFile)
    (probe : Option (String → Bool)) (t : String)
    (ht : containsChar t '#' = true) :
    (trimStr (takeUntilHash t) = "" → (resolveLink files probe t).valid = true) ∧
    (trimStr (takeUntilHash t) ≠ "" →
      (resolveLink files probe t).valid =
        (resolveLink files probe (trimStr (takeUntilHash t))).valid) := by
  constructor
  · intro he
    simp [resolveLink, ht, he]
  · intro hne
    have hfp := containsChar_filePart_hash t
    conv_lhs => rw [resolveLink]
    rw [if_pos ht, if_neg hne]
    conv_rhs => rw [resolveLink]
    rw [if_neg (by rw [hfp]; exact Bool.false_ne_true)]

/-- Witness for C4: a section link to an existing file resolves like its
file-part, and a bare section link resolves in the empty vault. -/
theorem resolveLink_section_split_witness :
    (resolveLink [⟨"Foo.md", "", 0, []⟩] none "Foo#Bar").valid =
      (resolveLink [⟨"Foo.md", "", 0, []⟩] none "Foo").valid ∧
    (resolveLink [] none "#Sec").valid = true := by
  constructor
  · have h2 := (resolveLink_section_split [⟨"Foo.md", "", 0, []⟩] none "Foo#Bar"
      (by decide)).2 (by decide)
    have he : trimStr (takeUntilHash "Foo#Bar") = "Foo" := by decide
    rw [he] at h2
    exact h2
  · exact (resolveLink_section_split [] none "#Sec" (by decide)).1 (by decide)

/-! ## Claim C6: connectivity scores stay in the unit interval -/

/-- **C6** (confirmed).  Both connectivity ratios returned by analyzeLinks
lie in the closed interval from 0 to 1 for every document collection, the
overall score is 0 for the empty collection, and the knowledge score is 0
when no non-structural document exists — the division-by-zero guards of the
source reproduce these values exactly. -/
theorem analyzeLinks_scores_unit_interval (files : List VaultFile)
    (probe : Option (String → Bool)) :
    (0 ≤ (analyzeLinks files probe).connectivityScore ∧
      (analyzeLinks files probe).connectivityScore ≤ 1) ∧
    (0 ≤ (analyzeLinks files probe).knowledgeConnectivity ∧
      (analyzeLinks files probe).knowledgeConnectivity ≤ 1) ∧
    (files = [] → (analyzeLinks files probe).connectivityScore = 0) ∧
    (files.filter (fun f => !isStructuralPath f.relativePath) = [] →
      (analyzeLinks files probe).knowledgeConnectivity = 0) := by
  have horph : ((files.filter (fun f => isOrphan files f)).map
      (·.relativePath)).length ≤ files.length := by
    rw [List.length_map]
    exact List.length_filter_le _ _
  have hko : ((files.filter (fun f =>
        isOrphan files f && !isStructuralPath f.relativePath)).map
      (·.relativePath)).length ≤
      (files.filter (fun f => !isStructuralPath f.relativePath)).length := by
    rw [List.length_map, ← List.filter_filter]
    exact List.length_filter_le _ _
  refine ⟨?_, ?_, ?_, ?_⟩
  · simp only [analyzeLinks]
    by_cases h : files.length > 0
    · rw [if_pos h]
      constructor
      · apply div_nonneg _ (by exact_mod_cast Nat.zero_le _)
        rw [sub_nonneg]
        exact_mod_cast horph
      · rw [div_le_one (by exact_mod_cast h)]
        have : (0 : ℚ) ≤ ((files.filter (fun f => isOrphan files f)).map
            (·.relativePath)).length := by exact_mod_cast Nat.zero_le _
        linarith
    · rw [if_neg h]
      norm_num
  · simp only [analyzeLinks]
    by_cases h : (files.filter (fun f => !isStructuralPath f.relativePath)).length > 0
    · rw [if_pos h]
      constructor
      · apply div_nonneg _ (by exact_mod_cast Nat.zero_le _)
        rw [sub_nonneg]
        exact_mod_cast hko
      · rw [div_le_one (by exact_mod_cast h)]
        have : (0 : ℚ) ≤ ((files.filter (fun f =>
            isOrphan files f && !isStructuralPath f.relativePath)).map
            (·.relativePath)).length := by exact_mod_cast Nat.zero_le _
        linarith
    · rw [if_neg h]
      norm_num
  · intro he
    subst he
    simp [analyzeLinks]
  · intro he
    simp only [analyzeLinks, he]
    norm_num

/-- Witness for C6: at the empty collection both scores are 0 and the bounds
hold, by the theorem applied at a concrete input. -/
theorem analyzeLinks_scores_unit_interval_witness :
    (analyzeLinks [] none).connectivityScore = 0 ∧
    0 ≤ (analyzeLinks [] none).knowledgeConnectivity :=
  ⟨(analyzeLinks_scores_unit_interval [] none).2.2.1 rfl,
   (analyzeLinks_scores_unit_interval [] none).2.1.1⟩

/-! ## BFS correctness: the enqueue fold and the fueled loop -/

lemma enqueueFold_cons (n : String) (ns visited queue : List String) :
    enqueueFold (n :: ns) visited queue =
      if n ∈ visited then enqueueFold ns visited queue
      else enqueueFold ns (visited ++ [n]) (queue ++ [n]) := by
  simp only [enqueueFold, List.foldl_cons]
  by_cases h : n ∈ visited <;> simp [h]

lemma enqueueFold_spec (ns : List String) :
    ∀ (visited queue : List String), visited.Nodup →
    ∃ Δ : List String,
      (enqueueFold ns visited queue).1 = visited ++ Δ ∧
      (enqueueFold ns visited queue).2 = queue ++ Δ ∧
      (visited ++ Δ).Nodup ∧
      (∀ x ∈ Δ, x ∈ ns) ∧
      (∀ x ∈ ns, x ∈ visited ++ Δ) := by
  induction ns with
  | nil =>
      intro visited queue hnd
      exact ⟨[], by simp [enqueueFold], by simp [enqueueFold], by simpa using hnd,
        by simp, by simp⟩
  | cons n ns ih =>
      intro visited queue hnd
      by_cases h : n ∈ visited
      · obtain ⟨Δ, h1, h2, h3, h4, h5⟩ := ih visited queue hnd
        refine ⟨Δ, ?_, ?_, h3, fun x hx => List.mem_cons_of_mem _ (h4 x hx), ?_⟩
        · rw [enqueueFold_cons, if_pos h]; exact h1
        · rw [enqueueFold_cons, if_pos h]; exact h2
        · intro x hx
          rcases List.mem_cons.1 hx with rfl | hx
          · exact List.mem_append_left _ h
          · exact h5 x hx
      · have hnd2 : (visited ++ [n]).Nodup := by
          simp [List.nodup_append, hnd, h]
        obtain ⟨Δ, h1, h2, h3, h4, h5⟩ := ih (visited ++ [n]) (queue ++ [n]) hnd2
        have hvn : visited ++ n :: Δ = (visited ++ [n]) ++ Δ := by
          simp [List.append_assoc]
        have hqn : queue ++ n :: Δ = (queue ++ [n]) ++ Δ := by
          simp [List.append_assoc]
        refine ⟨n :: Δ, ?_, ?_, ?_, ?_, ?_⟩
        · rw [enqueueFold_cons, if_neg h, hvn]; exact h1
        · rw [enqueueFold_cons, if_neg h, hqn]; exact h2
        · rw [hvn]; exact h3
        · intro x hx
          rcases List.mem_cons.1 hx with rfl | hx
          · exact List.mem_cons_self _ _
          · exact List.mem_cons_of_mem _ (h4 x hx)
        · intro x hx
          rcases List.mem_cons.1 hx with rfl | hx
          · rw [hvn]
            exact List.mem_append_left _ (List.mem_append_right _ (List.mem_singleton_self _))
          · rw [hvn]
            exact h5 x hx

lemma card_sdiff_append {univ visited Δ : List String}
    (hΔu : ∀ x ∈ Δ, x ∈ univ) (hnd : (visited ++ Δ).Nodup) :
    (univ.toFinset \ (visited ++ Δ).toFinset).card + Δ.length =
      (univ.toFinset \ visited.toFinset).card := by
  have hdisj : ∀ x ∈ Δ, x ∉ visited := by
    intro x hx hxv
    rcases List.nodup_append.1 hnd with ⟨-, -, hd⟩
    exact hd hxv hx
  have hΔnd : Δ.Nodup := (List.nodup_append.1 hnd).2.1
  have hsub : Δ.toFinset ⊆ univ.toFinset \ visited.toFinset := by
    intro x hx
    rw [List.mem_toFinset] at hx
    rw [Finset.mem_sdiff, List.mem_toFinset, List.mem_toFinset]
    exact ⟨hΔu x hx, hdisj x hx⟩
  have hsplit : univ.toFinset \ (visited ++ Δ).toFinset =
      (univ.toFinset \ visited.toFinset) \ Δ.toFinset := by
    rw [List.toFinset_append, ← Finset.sup_eq_union, ← sdiff_sdiff]
  rw [hsplit, Finset.card_sdiff hsub, List.toFinset_card_of_nodup hΔnd]
  have := Finset.card_le_card hsub
  rw [List.toFinset_card_of_nodup hΔnd] at this
  omega

lemma bfsAux_spec (nb : String → List String) (univ : List String)
    (hcl : ∀ x ∈ univ, ∀ y ∈ nb x, y ∈ univ) :
    ∀ (fuel : Nat) (visited queue cluster : List String),
    visited.Nodup →
    (∀ x ∈ queue, x ∈ visited) →
    (∀ x ∈ queue, x ∈ univ) →
    (∀ x ∈ visited, x ∈ univ) →
    (univ.toFinset \ visited.toFinset).card + queue.length + 1 ≤ fuel →
    ∃ Δ : List String,
      (bfsAux nb fuel visited queue cluster).1 = visited ++ Δ ∧
      (bfsAux nb fuel visited queue cluster).1.Nodup ∧
      (∀ x ∈ Δ, x ∈ univ) ∧
      (∀ x ∈ Δ, ∃ c, x ∈ nb c) ∧
      (bfsAux nb fuel visited queue cluster).2.Perm (cluster ++ queue ++ Δ) ∧
      (∀ x, x ∈ queue ∨ x ∈ Δ →
        ∀ y ∈ nb x, y ∈ (bfsAux nb fuel visited queue cluster).1) := by
  intro fuel
  induction fuel with
  | zero => intro visited queue cluster _ _ _ _ hfuel; omega
  | succ n ih =>
      intro visited queue cluster hnd hqv hqu hvu hfuel
      match queue with
      | [] =>
          refine ⟨[], by simp [bfsAux], by simpa [bfsAux] using hnd, by simp,
            by simp, by simp [bfsAux], ?_⟩
          rintro x (hx | hx) <;> simp at hx
      | c :: rest =>
          obtain ⟨Δ₁, e1, e2, e3, e4, e5⟩ := enqueueFold_spec (nb c) visited rest hnd
          have hcu : c ∈ univ := hqu c (List.mem_cons_self _ _)
          have hΔ₁u : ∀ x ∈ Δ₁, x ∈ univ := fun x hx => hcl c hcu x (e4 x hx)
          have hcount := @card_sdiff_append univ _ _ hΔ₁u e3
          have hrec := ih (enqueueFold (nb c) visited rest).1
            (enqueueFold (nb c) visited rest).2 (cluster ++ [c])
            (e1 ▸ e3)
            (by
              rw [e1, e2]
              intro x hx
              rcases List.mem_append.1 hx with hx | hx
              · exact List.mem_append_left _ (hqv x (List.mem_cons_of_mem _ hx))
              · exact List.mem_append_right _ hx)
            (by
              rw [e2]
              intro x hx
              rcases List.mem_append.1 hx with hx | hx
              · exact hqu x (List.mem_cons_of_mem _ hx)
              · exact hΔ₁u x hx)
            (by
              rw [e1]
              intro x hx
              rcases List.mem_append.1 hx with hx | hx
              · exact hvu x hx
              · exact hΔ₁u x hx)
            (by
              rw [e1, e2, List.length_append]
              simp only [List.length_cons] at hfuel
              omega)
          obtain ⟨Δ₂, r1, r2, r3, r4, r5, r6⟩ := hrec
          have hunfold : bfsAux nb (n + 1) visited (c :: rest) cluster =
              bfsAux nb n (enqueueFold (nb c) visited rest).1
                (enqueueFold (nb c) visited rest).2 (cluster ++ [c]) := rfl
          refine ⟨Δ₁ ++ Δ₂, ?_, ?_, ?_, ?_, ?_, ?_⟩
          · rw [hunfold, r1, e1, List.append_assoc]
          · rw [hunfold]; exact r2
          · intro x hx
            rcases List.mem_append.1 hx with hx | hx
            · exact hΔ₁u x hx
            · exact r3 x hx
          · intro x hx
            rcases List.mem_append.1 hx with hx | hx
            · exact ⟨c, e4 x hx⟩
            · exact r4 x hx
          · rw [hunfold]
            refine r5.trans (List.Perm.of_eq ?_)
            rw [e2]
            simp [List.append_assoc]
          · rintro x (hx | hx)
            · rcases List.mem_cons.1 hx with rfl | hx
              · intro y hy
                have hyv : y ∈ (enqueueFold (nb x) visited rest).1 := by
                  rw [e1]; exact e5 y hy
                rw [hunfold, r1]
                exact List.mem_append_left _ hyv
              · intro y hy
                rw [hunfold]
                exact r6 x (Or.inl (by rw [e2]; exact List.mem_append_left _ hx)) y hy
            · rcases List.mem_append.1 hx with hx | hx
              · intro y hy
                rw [hunfold]
                exact r6 x (Or.inl (by rw [e2]; exact List.mem_append_right _ hx)) y hy
              · intro y hy
                rw [hunfold]
                exact r6 x (Or.inr hx) y hy

/-! ## The undirected adjacency as a symmetric edge relation -/

lemma keys_addNeighbor (u : List (String × List String)) (k v : String) :
    (addNeighbor u k v).map Prod.fst = u.map Prod.fst := by
  simp only [addNeighbor, List.map_map]
  congr 1
  funext e
  by_cases h : e.1 = k <;> simp [h]

lemma assocGet_cons (e : String × List String) (u : List (String × List String))
    (p : String) :
    assocGet (e :: u) p = if e.1 = p then e.2 else assocGet u p := by
  by_cases h : e.1 = p
  · rw [if_pos h]
    simp only [assocGet]
    rw [List.find?_cons_of_pos _ (by simpa using h)]
    rfl
  · rw [if_neg h]
    simp only [assocGet]
    rw [List.find?_cons_of_neg _ (by simpa using h)]

lemma mem_assocGet_addNeighbor {u : List (String × List String)} {k v p x : String} :
    x ∈ assocGet (addNeighbor u k v) p ↔
      x ∈ assocGet u p ∨ (p = k ∧ x = v ∧ p ∈ u.map Prod.fst) := by
  induction u with
  | nil => simp [addNeighbor, assocGet]
  | cons e u ih =>
      have hcons : addNeighbor (e :: u) k v =
          (if e.1 = k then (e.1, if v ∈ e.2 then e.2 else e.2 ++ [v]) else e) ::
            addNeighbor u k v := by
        simp [addNeighbor]
      rw [hcons]
      by_cases hep : e.1 = p
      · by_cases hek : e.1 = k
        · have hpk : p = k := hep ▸ hek
          rw [if_pos hek, assocGet_cons]
          simp only [if_pos hep, assocGet_cons, List.map_cons, List.mem_cons]
          by_cases hv : v ∈ e.2
          · rw [if_pos hv]
            constructor
            · intro hx; exact Or.inl hx
            · rintro (hx | ⟨-, rfl, -⟩)
              · exact hx
              · exact hv
          · rw [if_neg hv, List.mem_append, List.mem_singleton]
            constructor
            · rintro (hx | rfl)
              · exact Or.inl hx
              · exact Or.inr ⟨hpk, rfl, Or.inl hep.symm⟩
            · rintro (hx | ⟨-, rfl, -⟩)
              · exact Or.inl hx
              · exact Or.inr rfl
        · rw [if_neg hek, assocGet_cons]
          simp only [if_pos hep, assocGet_cons, List.map_cons, List.mem_cons]
          constructor
          · exact Or.inl
          · rintro (hx | ⟨hpk, -, -⟩)
            · exact hx
            · exact absurd (hpk ▸ hep : e.1 = k) hek
      · by_cases hek : e.1 = k
        · rw [if_pos hek, assocGet_cons]
          simp only [if_neg hep, assocGet_cons, List.map_cons, List.mem_cons]
          rw [ih]
          constructor
          · rintro (hx | ⟨h1, h2, hkey⟩)
            · exact Or.inl hx
            · exact Or.inr ⟨h1, h2, Or.inr hkey⟩
          · rintro (hx | ⟨h1, h2, hkey | hkey⟩)
            · exact Or.inl hx
            · exact absurd (h1 ▸ hkey.symm : e.1 = p) hep
            · exact Or.inr ⟨h1, h2, hkey⟩
        · rw [if_neg hek, assocGet_cons]
          simp only [if_neg hep, assocGet_cons, List.map_cons, List.mem_cons]
          rw [ih]
          constructor
          · rintro (hx | ⟨h1, h2, hkey⟩)
            · exact Or.inl hx
            · exact Or.inr ⟨h1, h2, Or.inr hkey⟩
          · rintro (hx | ⟨h1, h2, hkey | hkey⟩)
            · exact Or.inl hx
            · exact absurd (hkey.symm : e.1 = p) hep
            · exact Or.inr ⟨h1, h2, hkey⟩

lemma keys_innerFold (ts : List String) :
    ∀ (u : List (String × List String)) (s : String),
    ((ts.foldl (fun u2 t => addNeighbor (addNeighbor u2 s t) t s) u)).map Prod.fst =
      u.map Prod.fst := by
  induction ts with
  | nil => intro u s; rfl
  | cons t ts ih =>
      intro u s
      rw [List.foldl_cons, ih, keys_addNeighbor, keys_addNeighbor]

lemma mem_assocGet_innerFold (ts : List String) :
    ∀ (u : List (String × List String)) (s p x : String),
    (x ∈ assocGet (ts.foldl (fun u2 t => addNeighbor (addNeighbor u2 s t) t s) u) p ↔
      x ∈ assocGet u p ∨ ∃ t ∈ ts,
        ((p = s ∧ x = t) ∨ (p = t ∧ x = s)) ∧ p ∈ u.map Prod.fst) := by
  induction ts with
  | nil => intro u s p x; simp
  | cons t ts ih =>
      intro u s p x
      rw [List.foldl_cons, ih, mem_assocGet_addNeighbor, mem_assocGet_addNeighbor]
      simp only [keys_addNeighbor]
      constructor
      · rintro (((hx | ⟨h1, h2, hkey⟩) | ⟨h1, h2, hkey⟩) | ⟨t', ht', hcond, hkey⟩)
        · exact Or.inl hx
        · exact Or.inr ⟨t, List.mem_cons_self _ _, Or.inl ⟨h1, h2⟩, hkey⟩
        · exact Or.inr ⟨t, List.mem_cons_self _ _, Or.inr ⟨h1, h2⟩, hkey⟩
        · exact Or.inr ⟨t', List.mem_cons_of_mem _ ht', hcond, hkey⟩
      · rintro (hx | ⟨t', ht', hcond, hkey⟩)
        · exact Or.inl (Or.inl (Or.inl hx))
        · rcases List.mem_cons.1 ht' with rfl | ht'
          · rcases hcond with ⟨h1, h2⟩ | ⟨h1, h2⟩
            · exact Or.inl (Or.inl (Or.inr ⟨h1, h2, hkey⟩))
            · exact Or.inl (Or.inr ⟨h1, h2, hkey⟩)
          · exact Or.inr ⟨t', ht', hcond, hkey⟩

lemma keys_outerFold (entries : List (String × List String)) :
    ∀ u : List (String × List String),
    ((entries.foldl (fun u e =>
        e.2.foldl (fun u2 t => addNeighbor (addNeighbor u2 e.1 t) t e.1) u) u)).map
      Prod.fst = u.map Prod.fst := by
  induction entries with
  | nil => intro u; rfl
  | cons e entries ih =>
      intro u
      rw [List.foldl_cons, ih, keys_innerFold]

lemma mem_assocGet_outerFold (entries : List (String × List String)) :
    ∀ (u : List (String × List String)) (p x : String),
    (x ∈ assocGet (entries.foldl (fun u e =>
        e.2.foldl (fun u2 t => addNeighbor (addNeighbor u2 e.1 t) t e.1) u) u) p ↔
      x ∈ assocGet u p ∨ ∃ e ∈ entries, ∃ t ∈ e.2,
        ((p = e.1 ∧ x = t) ∨ (p = t ∧ x = e.1)) ∧ p ∈ u.map Prod.fst) := by
  induction entries with
  | nil => intro u p x; simp [List.foldl_nil]
  | cons e entries ih =>
      intro u p x
      rw [List.foldl_cons, ih, mem_assocGet_innerFold]
      simp only [keys_innerFold]
      constructor
      · rintro ((hx | ⟨t, ht, hcond, hkey⟩) | ⟨e', he', t, ht, hcond, hkey⟩)
        · exact Or.inl hx
        · exact Or.inr ⟨e, List.mem_cons_self _ _, t, ht, hcond, hkey⟩
        · exact Or.inr ⟨e', List.mem_cons_of_mem _ he', t, ht, hcond, hkey⟩
      · rintro (hx | ⟨e', he', t, ht, hcond, hkey⟩)
        · exact Or.inl (Or.inl hx)
        · rcases List.mem_cons.1 he' with rfl | he'
          · exact Or.inl (Or.inr ⟨t, ht, hcond, hkey⟩)
          · exact Or.inr ⟨e', he', t, ht, hcond, hkey⟩

lemma assocGet_initKeys (keys : List String) (q : String) :
    assocGet (keys.map (fun p => (p, ([] : List String)))) q = [] := by
  induction keys with
  | nil => rfl
  | cons k keys ih =>
      rw [List.map_cons, assocGet_cons]
      by_cases h : k = q
      · simp [h]
      · simp only [if_neg h]
        exact ih

lemma keys_initKeys (keys : List String) :
    (keys.map (fun p => (p, ([] : List String)))).map Prod.fst = keys := by
  induction keys with
  | nil => rfl
  | cons k ks ih => simp [ih]

lemma mem_edgesOf {files : List VaultFile} {a b : String} :
    Edge.mk a b ∈ edgesOf files ↔
      ∃ f ∈ files, f.relativePath = a ∧ b ∈ resolvedTargets files f := by
  simp only [edgesOf, List.mem_flatMap, List.mem_map]
  constructor
  · rintro ⟨f, hf, tp, htp, heq⟩
    cases heq
    exact ⟨f, hf, rfl, htp⟩
  · rintro ⟨f, hf, rfl, htp⟩
    exact ⟨f, hf, b, htp, rfl⟩

lemma fileNameToPath_mem {files : List VaultFile} {n tp : String}
    (h : fileNameToPath files n = some tp) : tp ∈ files.map (·.relativePath) := by
  simp only [fileNameToPath, Option.map_eq_some'] at h
  obtain ⟨f, hf, rfl⟩ := h
  have := List.mem_of_find?_eq_some hf
  rw [List.mem_reverse] at this
  exact List.mem_map.2 ⟨f, this, rfl⟩

lemma resolvedTargets_mem {files : List VaultFile} {f : VaultFile} {t : String}
    (h : t ∈ resolvedTargets files f) : t ∈ files.map (·.relativePath) := by
  simp only [resolvedTargets, List.mem_filterMap] at h
  obtain ⟨l, -, hl⟩ := h
  rcases heq : fileNameToPath files (lowerStr l) with _ | tp
  · rw [heq] at hl; simp at hl
  · rw [heq] at hl
    simp only at hl
    split at hl
    · cases hl
      exact fileNameToPath_mem heq
    · cases hl

lemma mem_outAdj {files : List VaultFile} {s t : String} :
    t ∈ outAdj files s ↔ ∃ f ∈ files, f.relativePath = s ∧ t ∈ resolvedTargets files f := by
  simp only [outAdj, mem_dedupFirst, List.mem_flatMap, List.mem_filter]
  constructor
  · rintro ⟨f, ⟨hf, hrel⟩, ht⟩
    exact ⟨f, hf, by simpa using hrel, ht⟩
  · rintro ⟨f, hf, hrel, ht⟩
    exact ⟨f, ⟨hf, by simpa using hrel⟩, ht⟩

lemma mem_outAdj_iff_edge {files : List VaultFile} {s t : String} :
    t ∈ outAdj files s ↔ Edge.mk s t ∈ edgesOf files := by
  rw [mem_outAdj, mem_edgesOf]

lemma edge_source_mem {files : List VaultFile} {a b : String}
    (h : Edge.mk a b ∈ edgesOf files) : a ∈ files.map (·.relativePath) := by
  obtain ⟨f, hf, rfl, -⟩ := mem_edgesOf.1 h
  exact List.mem_map.2 ⟨f, hf, rfl⟩

lemma edge_target_mem {files : List VaultFile} {a b : String}
    (h : Edge.mk a b ∈ edgesOf files) : b ∈ files.map (·.relativePath) := by
  obtain ⟨f, -, -, ht⟩ := mem_edgesOf.1 h
  exact resolvedTargets_mem ht

/-- Membership in the undirected adjacency built from the analyzeGraph
adjacency is exactly the symmetric edge relation. -/
lemma mem_undirected_iff_edge (files : List VaultFile) (p q : String) :
    q ∈ assocGet (buildUndirected files (adjacencyOf files)) p ↔
      (Edge.mk p q ∈ edgesOf files ∨ Edge.mk q p ∈ edgesOf files) := by
  rw [buildUndirected, mem_assocGet_outerFold, assocGet_initKeys, keys_initKeys]
  constructor
  · rintro (hx | ⟨e, he, t, ht, hcond, -⟩)
    · simp at hx
    · simp only [adjacencyOf, List.mem_map] at he
      obtain ⟨s, -, rfl⟩ := he
      rcases hcond with ⟨rfl, rfl⟩ | ⟨rfl, rfl⟩
      · exact Or.inl (mem_outAdj_iff_edge.1 ht)
      · exact Or.inr (mem_outAdj_iff_edge.1 ht)
  · rintro (he | he)
    · refine Or.inr ⟨(p, outAdj files p), ?_, q, mem_outAdj_iff_edge.2 he,
        Or.inl ⟨rfl, rfl⟩, ?_⟩
      · simp only [adjacencyOf, List.mem_map]
        exact ⟨p, mem_dedupFirst.2 (edge_source_mem he), rfl⟩
      · exact mem_dedupFirst.2 (edge_source_mem he)
    · refine Or.inr ⟨(q, outAdj files q), ?_, p, mem_outAdj_iff_edge.2 he,
        Or.inr ⟨rfl, rfl⟩, ?_⟩
      · simp only [adjacencyOf, List.mem_map]
        exact ⟨q, mem_dedupFirst.2 (edge_source_mem he), rfl⟩
      · exact mem_dedupFirst.2 (edge_target_mem he)

/-! ## The outer loop of findClusters -/

lemma clustersFold_spec (nb : String → List String) (univ : List String)
    (fuel : Nat) (hU : univ.Nodup) (hnbU : ∀ x y, y ∈ nb x → y ∈ univ)
    (hfuel : univ.length + 1 ≤ fuel) :
    ∀ (fs : List VaultFile) (acc : List String × List (List String)),
    acc.1.Nodup → (∀ x ∈ acc.1, x ∈ univ) →
    (∀ f ∈ fs, f.relativePath ∈ univ) →
    (fs.foldl (clusterStep nb fuel) acc).1.Nodup ∧
    (∀ x ∈ (fs.foldl (clusterStep nb fuel) acc).1, x ∈ univ) ∧
    (∃ Tl : List String, (fs.foldl (clusterStep nb fuel) acc).1 = acc.1 ++ Tl) ∧
    (∃ Cs : List (List String),
      (fs.foldl (clusterStep nb fuel) acc).2 = acc.2 ++ Cs) ∧
    (∀ f ∈ fs, f.relativePath ∈ (fs.foldl (clusterStep nb fuel) acc).1) ∧
    (acc.2.flatten.Perm acc.1 →
      (fs.foldl (clusterStep nb fuel) acc).2.flatten.Perm
        (fs.foldl (clusterStep nb fuel) acc).1) := by
  intro fs
  induction fs with
  | nil =>
      intro acc h1 h2 _
      exact ⟨h1, h2, ⟨[], by simp⟩, ⟨[], by simp⟩, by simp, fun h => h⟩
  | cons f fs ih =>
      intro acc h1 h2 h3
      rw [List.foldl_cons]
      by_cases hf : f.relativePath ∈ acc.1
      · have hstep : clusterStep nb fuel acc f = acc := by
          simp [clusterStep, hf]
        rw [hstep]
        obtain ⟨g1, g2, g3, g4, g5, g6⟩ :=
          ih acc h1 h2 (fun g hg => h3 g (List.mem_cons_of_mem _ hg))
        refine ⟨g1, g2, g3, g4, ?_, g6⟩
        intro g hg
        rcases List.mem_cons.1 hg with rfl | hg
        · obtain ⟨Tl, hTl⟩ := g3
          rw [hTl]
          exact List.mem_append_left _ hf
        · exact g5 g hg
      · have hfu : f.relativePath ∈ univ := h3 f (List.mem_cons_self _ _)
        have hnd0 : (acc.1 ++ [f.relativePath]).Nodup := by
          simp [List.nodup_append, h1, hf]
        have hcard : (univ.toFinset \ (acc.1 ++ [f.relativePath]).toFinset).card + 2 ≤
            fuel := by
          have hss : univ.toFinset \ (acc.1 ++ [f.relativePath]).toFinset ⊂
              univ.toFinset := by
            refine Finset.ssubset_iff_of_subset (Finset.sdiff_subset) |>.2 ?_
            refine ⟨f.relativePath, List.mem_toFinset.2 hfu, ?_⟩
            rw [Finset.mem_sdiff]
            rintro ⟨-, habs⟩
            exact habs (List.mem_toFinset.2 (List.mem_append_right _
              (List.mem_singleton_self _)))
          have := Finset.card_lt_card hss
          rw [List.toFinset_card_of_nodup hU] at this
          omega
        obtain ⟨Δ, b1, b2, b3, b4, b5, b6⟩ := bfsAux_spec nb univ
          (fun x hx y hy => hnbU x y hy) fuel (acc.1 ++ [f.relativePath])
          [f.relativePath] [] hnd0
          (by intro x hx; rcases List.mem_singleton.1 hx with rfl
              exact List.mem_append_right _ (List.mem_singleton_self _))
          (by intro x hx; rcases List.mem_singleton.1 hx with rfl; exact hfu)
          (by intro x hx
              rcases List.mem_append.1 hx with hx | hx
              · exact h2 x hx
              · rcases List.mem_singleton.1 hx with rfl; exact hfu)
          (by simpa using hcard)
        have hstep : clusterStep nb fuel acc f =
            ((bfsAux nb fuel (acc.1 ++ [f.relativePath]) [f.relativePath] []).1,
             acc.2 ++ [(bfsAux nb fuel (acc.1 ++ [f.relativePath])
               [f.relativePath] []).2]) := by
          simp [clusterStep, hf]
        rw [hstep]
        obtain ⟨g1, g2, g3, g4, g5, g6⟩ := ih
          ((bfsAux nb fuel (acc.1 ++ [f.relativePath]) [f.relativePath] []).1,
           acc.2 ++ [(bfsAux nb fuel (acc.1 ++ [f.relativePath])
             [f.relativePath] []).2])
          b2
          (by rw [b1]
              intro x hx
              rcases List.mem_append.1 hx with hx | hx
              · rcases List.mem_append.1 hx with hx | hx
                · exact h2 x hx
                · rcases List.mem_singleton.1 hx with rfl; exact hfu
              · exact b3 x hx)
          (fun g hg => h3 g (List.mem_cons_of_mem _ hg))
        refine ⟨g1, g2, ?_, ?_, ?_, ?_⟩
        · obtain ⟨Tl, hTl⟩ := g3
          exact ⟨[f.relativePath] ++ Δ ++ Tl, by
            rw [hTl, b1]
            simp [List.append_assoc]⟩
        · obtain ⟨Cs, hCs⟩ := g4
          exact ⟨[(bfsAux nb fuel (acc.1 ++ [f.relativePath])
              [f.relativePath] []).2] ++ Cs, by rw [hCs, List.append_assoc]⟩
        · intro g hg
          rcases List.mem_cons.1 hg with rfl | hg
          · obtain ⟨Tl, hTl⟩ := g3
            rw [hTl, b1]
            exact List.mem_append_left _ (List.mem_append_left _
              (List.mem_append_right _ (List.mem_singleton_self _)))
          · exact g5 g hg
        · intro hacc
          apply g6
          have hperm2 : (bfsAux nb fuel (acc.1 ++ [f.relativePath])
              [f.relativePath] []).2.Perm ([f.relativePath] ++ Δ) := by
            simpa using b5
          have hjoin : (acc.2 ++ [(bfsAux nb fuel (acc.1 ++ [f.relativePath])
              [f.relativePath] []).2]).flatten =
              acc.2.flatten ++ (bfsAux nb fuel (acc.1 ++ [f.relativePath])
                [f.relativePath] []).2 := by
            simp
          rw [hjoin, b1, List.append_assoc]
          exact hacc.append hperm2

lemma bfsAux_no_neighbors (nb : String → List String) (v cluster : List String)
    (c : String) (fuel : Nat) (h2 : 2 ≤ fuel) (hnb : nb c = []) :
    bfsAux nb fuel v [c] cluster = (v, cluster ++ [c]) := by
  obtain ⟨k, rfl⟩ : ∃ k, fuel = k + 2 := ⟨fuel - 2, by omega⟩
  have h1 : bfsAux nb (k + 2) v [c] cluster =
      bfsAux nb (k + 1) (enqueueFold (nb c) v []).1 (enqueueFold (nb c) v []).2
        (cluster ++ [c]) := rfl
  rw [h1, hnb]
  simp [enqueueFold, bfsAux]

lemma foldl_clusterStep_all_visited (nb : String → List String) (fuel : Nat) :
    ∀ (fs : List VaultFile) (acc : List String × List (List String)),
    (∀ f ∈ fs, f.relativePath ∈ acc.1) →
    fs.foldl (clusterStep nb fuel) acc = acc := by
  intro fs
  induction fs with
  | nil => intro acc _; rfl
  | cons f fs ih =>
      intro acc h
      rw [List.foldl_cons]
      have hstep : clusterStep nb fuel acc f = acc := by
        simp [clusterStep, h f (List.mem_cons_self _ _)]
      rw [hstep]
      exact ih acc (fun g hg => h g (List.mem_cons_of_mem _ hg))

lemma clustersFold_nbEmpty (nb : String → List String) (fuel : Nat)
    (hnb : ∀ p, nb p = []) (hfuel2 : 2 ≤ fuel) :
    ∀ (fs : List VaultFile) (acc : List String × List (List String)),
    (fs.map (·.relativePath)).Nodup →
    (∀ g ∈ fs, g.relativePath ∉ acc.1) →
    (fs.foldl (clusterStep nb fuel) acc).2.length = acc.2.length + fs.length ∧
    (fs.foldl (clusterStep nb fuel) acc).1 = acc.1 ++ fs.map (·.relativePath) := by
  intro fs
  induction fs with
  | nil => intro acc _ _; simp
  | cons f fs ih =>
      intro acc hnd hnin
      rw [List.foldl_cons]
      have hf : f.relativePath ∉ acc.1 := hnin f (List.mem_cons_self _ _)
      have hstep : clusterStep nb fuel acc f =
          (acc.1 ++ [f.relativePath], acc.2 ++ [[f.relativePath]]) := by
        simp only [clusterStep, if_neg hf]
        rw [bfsAux_no_neighbors nb _ _ _ _ hfuel2 (hnb _)]
        simp
      rw [hstep]
      rw [List.map_cons, List.nodup_cons] at hnd
      obtain ⟨hleft, hright⟩ := ih (acc.1 ++ [f.relativePath], acc.2 ++ [[f.relativePath]])
        hnd.2
        (by
          intro g hg
          rw [List.mem_append, List.mem_singleton]
          rintro (hga | hgf)
          · exact hnin g (List.mem_cons_of_mem _ hg) hga
          · exact hnd.1 (hgf ▸ List.mem_map.2 ⟨g, hg, rfl⟩))
      constructor
      · rw [hleft]
        simp
        omega
      · rw [hright]
        simp [List.append_assoc]

lemma clustersFold_singleton (nb : String → List String) (univ : List String)
    (fuel : Nat) (hU : univ.Nodup) (hnbU : ∀ x y, y ∈ nb x → y ∈ univ)
    (hfuel : univ.length + 1 ≤ fuel) (hfuel2 : 2 ≤ fuel)
    (hsymm : ∀ x y, y ∈ nb x → x ∈ nb y) :
    ∀ (fs : List VaultFile) (acc : List String × List (List String)),
    acc.1.Nodup → (∀ x ∈ acc.1, x ∈ univ) →
    (∀ g ∈ fs, g.relativePath ∈ univ) →
    (fs.map (·.relativePath)).Nodup →
    ∀ f ∈ fs, nb f.relativePath = [] → f.relativePath ∉ acc.1 →
    [f.relativePath] ∈ (fs.foldl (clusterStep nb fuel) acc).2 := by
  intro fs
  induction fs with
  | nil => intro acc _ _ _ _ f hf; simp at hf
  | cons g fs ih =>
      intro acc h1 h2 h3 hnd f hf hnbf hfacc
      rw [List.foldl_cons]
      rw [List.map_cons, List.nodup_cons] at hnd
      rcases List.mem_cons.1 hf with rfl | hf
      · have hstep : clusterStep nb fuel acc f =
            (acc.1 ++ [f.relativePath], acc.2 ++ [[f.relativePath]]) := by
          simp only [clusterStep, if_neg hfacc]
          rw [bfsAux_no_neighbors nb _ _ _ _ hfuel2 hnbf]
          simp
        rw [hstep]
        obtain ⟨-, -, -, ⟨Cs, hCs⟩, -, -⟩ := clustersFold_spec nb univ fuel hU hnbU
          hfuel fs (acc.1 ++ [f.relativePath], acc.2 ++ [[f.relativePath]])
          (by simp [List.nodup_append, h1, hfacc])
          (by
            intro x hx
            rcases List.mem_append.1 hx with hx | hx
            · exact h2 x hx
            · rcases List.mem_singleton.1 hx with rfl
              exact h3 f (List.mem_cons_self _ _))
          (fun g hg => h3 g (List.mem_cons_of_mem _ hg))
        rw [hCs]
        exact List.mem_append_left _ (List.mem_append_right _
          (List.mem_singleton_self _))
      · by_cases hg : g.relativePath ∈ acc.1
        · have hstep : clusterStep nb fuel acc g = acc := by
            simp [clusterStep, hg]
          rw [hstep]
          exact ih acc h1 h2 (fun g2 hg2 => h3 g2 (List.mem_cons_of_mem _ hg2))
            hnd.2 f hf hnbf hfacc
        · have hgu : g.relativePath ∈ univ := h3 g (List.mem_cons_self _ _)
          have hnd0 : (acc.1 ++ [g.relativePath]).Nodup := by
            simp [List.nodup_append, h1, hg]
          have hcard : (univ.toFinset \ (acc.1 ++ [g.relativePath]).toFinset).card + 2 ≤
              fuel := by
            have hss : univ.toFinset \ (acc.1 ++ [g.relativePath]).toFinset ⊂
                univ.toFinset := by
              refine Finset.ssubset_iff_of_subset (Finset.sdiff_subset) |>.2 ?_
              refine ⟨g.relativePath, List.mem_toFinset.2 hgu, ?_⟩
              rw [Finset.mem_sdiff]
              rintro ⟨-, habs⟩
              exact habs (List.mem_toFinset.2 (List.mem_append_right _
                (List.mem_singleton_self _)))
            have := Finset.card_lt_card hss
            rw [List.toFinset_card_of_nodup hU] at this
            omega
          obtain ⟨Δ, b1, b2, b3, b4, b5, b6⟩ := bfsAux_spec nb univ
            (fun x hx y hy => hnbU x y hy) fuel (acc.1 ++ [g.relativePath])
            [g.relativePath] [] hnd0
            (by intro x hx; rcases List.mem_singleton.1 hx with rfl
                exact List.mem_append_right _ (List.mem_singleton_self _))
            (by intro x hx; rcases List.mem_singleton.1 hx with rfl; exact hgu)
            (by intro x hx
                rcases List.mem_append.1 hx with hx | hx
                · exact h2 x hx
                · rcases List.mem_singleton.1 hx with rfl; exact hgu)
            (by simpa using hcard)
          have hstep : clusterStep nb fuel acc g =
              ((bfsAux nb fuel (acc.1 ++ [g.relativePath]) [g.relativePath] []).1,
               acc.2 ++ [(bfsAux nb fuel (acc.1 ++ [g.relativePath])
                 [g.relativePath] []).2]) := by
            simp [clusterStep, hg]
          rw [hstep]
          refine ih _ b2 ?_ (fun g2 hg2 => h3 g2 (List.mem_cons_of_mem _ hg2))
            hnd.2 f hf hnbf ?_
          · rw [b1]
            intro x hx
            rcases List.mem_append.1 hx with hx | hx
            · rcases List.mem_append.1 hx with hx | hx
              · exact h2 x hx
              · rcases List.mem_singleton.1 hx with rfl; exact hgu
            · exact b3 x hx
          · rw [b1]
            rw [List.mem_append, List.mem_append, List.mem_singleton]
            rintro ((hx | hx) | hx)
            · exact hfacc hx
            · exact hnd.1 (hx ▸ List.mem_map.2 ⟨f, hf, rfl⟩)
            · obtain ⟨c, hc⟩ := b4 _ hx
              have := hsymm c f.relativePath hc
              rw [hnbf] at this
              simp at this

lemma clustersFold_connected (nb : String → List String) (univ : List String)
    (fuel : Nat) (hU : univ.Nodup) (hnbU : ∀ x y, y ∈ nb x → y ∈ univ)
    (hfuel : univ.length + 1 ≤ fuel) (f0 : VaultFile) (fs : List VaultFile)
    (hf0 : f0.relativePath ∈ univ) (hfs : ∀ g ∈ fs, g.relativePath ∈ univ)
    (hconn : ∀ q ∈ univ,
      Relation.ReflTransGen (fun a b => b ∈ nb a) f0.relativePath q) :
    ((f0 :: fs).foldl (clusterStep nb fuel) ([], [])).2.length = 1 := by
  rw [List.foldl_cons]
  have hcard : (univ.toFinset \ ([f0.relativePath] : List String).toFinset).card + 2 ≤
      fuel := by
    have hss : univ.toFinset \ ([f0.relativePath] : List String).toFinset ⊂
        univ.toFinset := by
      refine Finset.ssubset_iff_of_subset (Finset.sdiff_subset) |>.2 ?_
      refine ⟨f0.relativePath, List.mem_toFinset.2 hf0, ?_⟩
      rw [Finset.mem_sdiff]
      rintro ⟨-, habs⟩
      exact habs (List.mem_toFinset.2 (List.mem_singleton_self _))
    have := Finset.card_lt_card hss
    rw [List.toFinset_card_of_nodup hU] at this
    omega
  obtain ⟨Δ, b1, b2, b3, b4, b5, b6⟩ := bfsAux_spec nb univ
    (fun x hx y hy => hnbU x y hy) fuel [f0.relativePath] [f0.relativePath] []
    (List.nodup_singleton _)
    (fun x hx => hx) (fun x hx => by rcases List.mem_singleton.1 hx with rfl; exact hf0)
    (fun x hx => by rcases List.mem_singleton.1 hx with rfl; exact hf0)
    (by simpa using hcard)
  have hstep : clusterStep nb fuel ([], []) f0 =
      ((bfsAux nb fuel [f0.relativePath] [f0.relativePath] []).1,
       [(bfsAux nb fuel [f0.relativePath] [f0.relativePath] []).2]) := by
    simp [clusterStep]
  rw [hstep]
  have hclosed : ∀ x ∈ (bfsAux nb fuel [f0.relativePath] [f0.relativePath] []).1,
      ∀ y ∈ nb x, y ∈ (bfsAux nb fuel [f0.relativePath] [f0.relativePath] []).1 := by
    intro x hx
    rw [b1] at hx
    rcases List.mem_append.1 hx with hx | hx
    · exact b6 x (Or.inl hx)
    · exact b6 x (Or.inr hx)
  have hreach : ∀ q : String,
      Relation.ReflTransGen (fun a b => b ∈ nb a) f0.relativePath q →
      q ∈ (bfsAux nb fuel [f0.relativePath] [f0.relativePath] []).1 := by
    intro q h
    induction h with
    | refl =>
        rw [b1]
        exact List.mem_append_left _ (List.mem_singleton_self _)
    | tail hst hrel ih =>
        exact hclosed _ ih _ hrel
  rw [foldl_clusterStep_all_visited nb fuel fs _
    (fun g hg => hreach g.relativePath (hconn g.relativePath (hfs g hg)))]
  rfl

/-! ## Claim C7: clusters form a partition -/

/-- **C7** (confirmed).  For every document collection with distinct relative
paths (the data model's identity key): the clusters of analyzeGraph form a
partition of the node set — their concatenation is a permutation of the paths,
so every node lies in exactly one cluster; a node touched by no edge forms the
singleton cluster of its own path; when there are no edges the cluster count
equals the document count; and when the undirected closure of the edge set
connects every pair of nodes (and the vault is non-empty) the cluster count
is one. -/
theorem analyzeGraph_clusters_partition (files : List VaultFile)
    (hnd : (files.map (·.relativePath)).Nodup) :
    (analyzeGraph files).clusters.flatten.Perm (files.map (·.relativePath)) ∧
    ((analyzeGraph files).edges = [] →
      (analyzeGraph files).clusters.length = files.length) ∧
    (files ≠ [] →
      (∀ p ∈ files.map (·.relativePath), ∀ q ∈ files.map (·.relativePath),
        Relation.ReflTransGen
          (fun a b => Edge.mk a b ∈ (analyzeGraph files).edges ∨
            Edge.mk b a ∈ (analyzeGraph files).edges) p q) →
      (analyzeGraph files).clusters.length = 1) ∧
    (∀ f ∈ files,
      (∀ q : String, Edge.mk f.relativePath q ∉ (analyzeGraph files).edges ∧
        Edge.mk q f.relativePath ∉ (analyzeGraph files).edges) →
      [f.relativePath] ∈ (analyzeGraph files).clusters) := by
  have hedges : (analyzeGraph files).edges = edgesOf files := rfl
  have hclusters : (analyzeGraph files).clusters =
      (files.foldl (clusterStep
        (fun p => assocGet (buildUndirected files (adjacencyOf files)) p)
        (files.length + 1)) ([], [])).2 := rfl
  have hU : (dedupFirst (files.map (·.relativePath))).Nodup := nodup_dedupFirst _
  have hmemU : ∀ x : String, x ∈ dedupFirst (files.map (·.relativePath)) ↔
      x ∈ files.map (·.relativePath) := fun x => mem_dedupFirst
  have hnbU : ∀ x y : String,
      y ∈ assocGet (buildUndirected files (adjacencyOf files)) x →
      y ∈ dedupFirst (files.map (·.relativePath)) := by
    intro x y hy
    rcases (mem_undirected_iff_edge files x y).1 hy with h | h
    · exact (hmemU y).2 (edge_target_mem h)
    · exact (hmemU y).2 (edge_source_mem h)
  have hsymm : ∀ x y : String,
      y ∈ assocGet (buildUndirected files (adjacencyOf files)) x →
      x ∈ assocGet (buildUndirected files (adjacencyOf files)) y := by
    intro x y hy
    rw [mem_undirected_iff_edge]
    exact ((mem_undirected_iff_edge files x y).1 hy).symm
  have hfuel : (dedupFirst (files.map (·.relativePath))).length + 1 ≤
      files.length + 1 := by
    have := length_dedupFirst_le (files.map (·.relativePath))
    rw [List.length_map] at this
    omega
  have hpathsU : ∀ f ∈ files,
      f.relativePath ∈ dedupFirst (files.map (·.relativePath)) :=
    fun f hf => (hmemU _).2 (List.mem_map.2 ⟨f, hf, rfl⟩)
  refine ⟨?_, ?_, ?_, ?_⟩
  · obtain ⟨g1, g2, g3, g4, g5, g6⟩ := clustersFold_spec _ _ _ hU hnbU hfuel
      files ([], []) (by simp) (by simp) hpathsU
    have hperm := g6 (by simp)
    have hres1 : (files.foldl (clusterStep
        (fun p => assocGet (buildUndirected files (adjacencyOf files)) p)
        (files.length + 1)) ([], [])).1.Perm (files.map (·.relativePath)) := by
      apply List.perm_of_nodup_nodup_toFinset_eq g1 hnd
      ext x
      simp only [List.mem_toFinset]
      constructor
      · intro hx
        exact (hmemU x).1 (g2 x hx)
      · intro hx
        obtain ⟨f, hf, rfl⟩ := List.mem_map.1 hx
        exact g5 f hf
    rw [hclusters]
    exact hperm.trans hres1
  · intro hE
    rw [hedges] at hE
    have hnbe : ∀ p, assocGet (buildUndirected files (adjacencyOf files)) p = [] := by
      intro p
      rw [List.eq_nil_iff_forall_not_mem]
      intro y hy
      rcases (mem_undirected_iff_edge files p y).1 hy with h | h <;>
        · rw [hE] at h
          exact absurd h (List.not_mem_nil _)
    by_cases hemp : files = []
    · subst hemp
      rfl
    · have hfuel2 : 2 ≤ files.length + 1 := by
        have := List.length_pos.2 hemp
        omega
      obtain ⟨hlen, -⟩ := clustersFold_nbEmpty _ _ hnbe hfuel2 files ([], [])
        hnd (by simp)
      rw [hclusters, hlen]
      simp
  · intro hne hconn
    rcases files with _ | ⟨f0, rest⟩
    · exact absurd rfl hne
    · rw [hclusters]
      apply clustersFold_connected _ _ _ hU hnbU hfuel f0 rest
        (hpathsU f0 (List.mem_cons_self _ _))
        (fun g hg => hpathsU g (List.mem_cons_of_mem _ hg))
      intro q hq
      have hq2 := (hmemU q).1 hq
      have hf0 : f0.relativePath ∈ (f0 :: rest).map (·.relativePath) := by
        simp
      refine Relation.ReflTransGen.mono ?_ (hconn f0.relativePath hf0 q hq2)
      intro a b hab
      rw [mem_undirected_iff_edge]
      rw [hedges] at hab
      exact hab
  · intro f hf hiso
    have hnbf : assocGet (buildUndirected files (adjacencyOf files))
        f.relativePath = [] := by
      rw [List.eq_nil_iff_forall_not_mem]
      intro y hy
      rcases (mem_undirected_iff_edge files f.relativePath y).1 hy with h | h
      · exact (hiso y).1 (hedges ▸ h)
      · exact (hiso y).2 (hedges ▸ h)
    have hfuel2 : 2 ≤ files.length + 1 := by
      have := List.length_pos.2 (List.ne_nil_of_mem hf)
      omega
    rw [hclusters]
    exact clustersFold_singleton _ _ _ hU hnbU hfuel hfuel2 hsymm files ([], [])
      (by simp) (by simp) hpathsU hnd f hf hnbf (by simp)

/-- Witness for C7: in the two-document vault A ↔ B the clusters join to a
permutation of the paths, the graph is connected so there is exactly one
cluster, by the theorem applied at a concrete input. -/
theorem analyzeGraph_clusters_partition_witness :
    (analyzeGraph [⟨"A.md", "", 1, ["B"]⟩, ⟨"B.md", "", 1, ["A"]⟩]).clusters.flatten.Perm
      ["A.md", "B.md"] ∧
    (analyzeGraph [⟨"A.md", "", 1, ["B"]⟩, ⟨"B.md", "", 1, ["A"]⟩]).clusters.length = 1 := by
  have h := analyzeGraph_clusters_partition
    [⟨"A.md", "", 1, ["B"]⟩, ⟨"B.md", "", 1, ["A"]⟩] (by decide)
  refine ⟨h.1, h.2.2.1 (by decide) ?_⟩
  intro p hp q hq
  have hAB : Edge.mk "A.md" "B.md" ∈
      (analyzeGraph [⟨"A.md", "", 1, ["B"]⟩, ⟨"B.md", "", 1, ["A"]⟩]).edges := by
    decide
  have hBA : Edge.mk "B.md" "A.md" ∈
      (analyzeGraph [⟨"A.md", "", 1, ["B"]⟩, ⟨"B.md", "", 1, ["A"]⟩]).edges := by
    decide
  fin_cases hp <;> fin_cases hq
  · exact Relation.ReflTransGen.refl
  · exact Relation.ReflTransGen.single (Or.inl hAB)
  · exact Relation.ReflTransGen.single (Or.inl hBA)
  · exact Relation.ReflTransGen.refl

/-! ## Claim C3: the membership characterization of bridges -/

lemma resolvedTargets_self (f : VaultFile) : resolvedTargets [f] f = [] := by
  simp only [resolvedTargets]
  rw [List.filterMap_eq_nil_iff]
  intro l _
  by_cases h : lowerStr (basenameMd f.relativePath) = lowerStr l <;>
    simp [fileNameToPath, h]

lemma edgesOf_of_length_le_one {files : List VaultFile} (h : files.length ≤ 1) :
    edgesOf files = [] := by
  rcases files with _ | ⟨f, rest⟩
  · rfl
  · rcases rest with _ | ⟨g, rest2⟩
    · simp [edgesOf, resolvedTargets_self]
    · simp at h

lemma assocGet_adjacencyOf {files : List VaultFile} {q : String}
    (hq : q ∈ files.map (·.relativePath)) :
    assocGet (adjacencyOf files) q = outAdj files q := by
  have hq2 : q ∈ dedupFirst (files.map (·.relativePath)) := mem_dedupFirst.2 hq
  rw [adjacencyOf]
  revert hq2
  generalize dedupFirst (files.map (·.relativePath)) = keys
  intro hk
  induction keys with
  | nil => simp at hk
  | cons k ks ih =>
      rw [List.map_cons, assocGet_cons]
      by_cases h : k = q
      · subst h; simp
      · simp only [if_neg h]
        refine ih ?_
        rcases List.mem_cons.1 hk with rfl | hk2
        · exact absurd rfl h
        · exact hk2

lemma outAdj_pos_iff {files : List VaultFile} {f : VaultFile} (hf : f ∈ files) :
    0 < (assocGet (adjacencyOf files) f.relativePath).length ↔
      ∃ q, Edge.mk f.relativePath q ∈ edgesOf files := by
  rw [assocGet_adjacencyOf (List.mem_map.2 ⟨f, hf, rfl⟩), List.length_pos]
  constructor
  · intro h
    obtain ⟨q, hq⟩ := List.exists_mem_of_ne_nil _ h
    exact ⟨q, mem_outAdj_iff_edge.1 hq⟩
  · rintro ⟨q, hq⟩
    exact List.ne_nil_of_mem (mem_outAdj_iff_edge.2 hq)

/-- **C3** (amended claim, proved).  A node is in the bridges list of
analyzeGraph if and only if it is a document with at least one OUTGOING edge
(nodes with only incoming edges are not candidates) whose simulated removal
strictly increases the cluster count recomputed by the same BFS clustering.
A node with no edges is, in particular, never reported — also in a
single-document vault, where the bridge list is empty outright. -/
theorem analyzeGraph_bridges_iff (files : List VaultFile) (p : String) :
    p ∈ (analyzeGraph files).bridges ↔
      ∃ f ∈ files, f.relativePath = p ∧
        (∃ q, Edge.mk p q ∈ (analyzeGraph files).edges) ∧
        (analyzeGraph files).clusters.length < (removalClusters files p).length := by
  have hedges : (analyzeGraph files).edges = edgesOf files := rfl
  have hbridges : (analyzeGraph files).bridges =
      findBridges files (adjacencyOf files) (findClusters files (adjacencyOf files)) :=
    rfl
  have hclusters : (analyzeGraph files).clusters =
      findClusters files (adjacencyOf files) := rfl
  by_cases hguard : (findClusters files (adjacencyOf files)).length ≤ 1 ∧
      files.length ≤ 1
  · constructor
    · intro habs
      rw [hbridges] at habs
      simp only [findBridges, if_pos hguard] at habs
      exact absurd habs (List.not_mem_nil _)
    · rintro ⟨f, hf, rfl, ⟨q, hq⟩, -⟩
      rw [hedges, edgesOf_of_length_le_one hguard.2] at hq
      exact absurd hq (List.not_mem_nil _)
  · rw [hbridges, hclusters]
    simp only [findBridges, if_neg hguard]
    rw [List.mem_map]
    constructor
    · rintro ⟨f, hmem, rfl⟩
      rw [List.mem_filter] at hmem
      obtain ⟨hmem1, hcond⟩ := hmem
      rw [List.mem_filter] at hmem1
      obtain ⟨hfmem, hdeg⟩ := hmem1
      refine ⟨f, hfmem, rfl, ?_, ?_⟩
      · rw [hedges]
        exact (outAdj_pos_iff hfmem).1 (by simpa using hdeg)
      · have := of_decide_eq_true hcond
        simpa [removalClusters] using this
    · rintro ⟨f, hfmem, rfl, ⟨q, hq⟩, hlt⟩
      refine ⟨f, ?_, rfl⟩
      rw [List.mem_filter, List.mem_filter]
      rw [hedges] at hq
      refine ⟨⟨hfmem, ?_⟩, ?_⟩
      · simpa using (outAdj_pos_iff hfmem).2 ⟨q, hq⟩
      · simp only [removalClusters] at hlt
        simpa using hlt

/-! ## String lemmas for path-style resolution -/

lemma char_eq_of_toNat_eq {c d : Char} (h : c.toNat = d.toNat) : c = d :=
  Char.ext (UInt32.ext h)

lemma toNat_lowerChar (c : Char) :
    (lowerChar c).toNat =
      if 65 ≤ c.toNat ∧ c.toNat ≤ 90 then c.toNat + 32 else c.toNat := by
  unfold lowerChar
  split
  · next h =>
      have hv : (c.toNat + 32).isValidChar := Or.inl (by omega)
      unfold Char.ofNat
      rw [dif_pos hv]
      rfl
  · rfl

lemma lowerChar_eq_slash_iff {c : Char} : lowerChar c = '/' ↔ c = '/' := by
  constructor
  · intro h
    have h2 := congrArg Char.toNat h
    rw [toNat_lowerChar] at h2
    have h47 : ('/').toNat = 47 := by decide
    apply char_eq_of_toNat_eq
    by_cases hr : 65 ≤ c.toNat ∧ c.toNat ≤ 90
    · rw [if_pos hr] at h2
      omega
    · rw [if_neg hr] at h2
      exact h2
  · rintro rfl
    decide

lemma lowerChar_idem (c : Char) : lowerChar (lowerChar c) = lowerChar c := by
  apply char_eq_of_toNat_eq
  rw [toNat_lowerChar, toNat_lowerChar]
  split_ifs <;> omega

lemma lowerStr_data (s : String) : (lowerStr s).data = s.data.map lowerChar := rfl

lemma lowerStr_idem (s : String) : lowerStr (lowerStr s) = lowerStr s := by
  rw [String.ext_iff]
  show (s.data.map lowerChar).map lowerChar = s.data.map lowerChar
  rw [List.map_map]
  apply List.map_congr_left
  intro c _
  exact lowerChar_idem c

lemma mdChars_map_lower :
    ('.' :: 'm' :: 'd' :: []).map lowerChar = '.' :: 'm' :: 'd' :: [] := by decide

lemma mdString_data : (".md" : String).data = '.' :: 'm' :: 'd' :: [] := rfl

lemma strEndsWith_iff {s suf : String} :
    strEndsWith s suf = true ↔ ∃ pre, pre ++ suf.data = s.data := by
  rw [strEndsWith, List.isSuffixOf_iff_suffix]
  exact Iff.rfl

lemma stripMd_append_of_endsWith {s : String} (h : strEndsWith s ".md" = true) :
    (stripMd s).data ++ '.' :: 'm' :: 'd' :: [] = s.data := by
  obtain ⟨pre, hpre⟩ := strEndsWith_iff.1 h
  rw [mdString_data] at hpre
  have hdata : (stripMd s).data = pre := by
    rw [stripMd, if_pos h]
    show (s.data.take (s.data.length - 3)) = pre
    rw [← hpre, List.length_append]
    simp only [List.length_cons, List.length_nil]
    rw [show pre.length + (2 + 1) - 3 = pre.length by omega]
    exact List.take_left pre _
  rw [hdata, hpre]

lemma lowerStr_endsWith_md {s : String} (h : strEndsWith s ".md" = true) :
    strEndsWith (lowerStr s) ".md" = true := by
  rw [strEndsWith_iff]
  refine ⟨(stripMd s).data.map lowerChar, ?_⟩
  rw [mdString_data, lowerStr_data, ← stripMd_append_of_endsWith h,
    List.map_append, mdChars_map_lower]

lemma lowerStr_eq_iff_strip {f t : String} (hf : strEndsWith f ".md" = true) :
    lowerStr (stripMd f) = lowerStr t ↔ lowerStr f = lowerStr (t ++ ".md") := by
  rw [String.ext_iff, String.ext_iff, lowerStr_data, lowerStr_data, lowerStr_data,
    lowerStr_data]
  rw [show (t ++ ".md").data = t.data ++ '.' :: 'm' :: 'd' :: [] from rfl]
  rw [← stripMd_append_of_endsWith hf]
  rw [List.map_append, List.map_append, mdChars_map_lower]
  exact (List.append_left_inj _).symm

lemma containsChar_iff_mem {s : String} {c : Char} :
    containsChar s c = true ↔ c ∈ s.data := by
  rw [containsChar]
  exact List.elem_iff

lemma containsChar_lowerStr_slash (s : String) :
    containsChar (lowerStr s) '/' = containsChar s '/' := by
  by_cases h : containsChar s '/' = true
  · rw [h]
    rw [containsChar_iff_mem] at h ⊢
    rw [lowerStr_data, List.mem_map]
    exact ⟨'/', h, by decide⟩
  · have h2 : containsChar (lowerStr s) '/' = false := by
      rw [Bool.eq_false_iff]
      intro habs
      apply h
      rw [containsChar_iff_mem] at habs ⊢
      rw [lowerStr_data, List.mem_map] at habs
      obtain ⟨c, hc, hlc⟩ := habs
      exact (lowerChar_eq_slash_iff.1 hlc) ▸ hc
    rw [h2]
    exact (Bool.eq_false_iff.2 h).symm

lemma containsChar_posixBasename_slash (s : String) :
    containsChar (posixBasename s) '/' = false := by
  rw [Bool.eq_false_iff]
  intro h
  rw [containsChar_iff_mem] at h
  rw [posixBasename] at h
  simp only at h
  rw [List.mem_reverse] at h
  have := List.mem_takeWhile_imp h
  simp at this

lemma containsChar_basenameMd_slash (p : String) :
    containsChar (basenameMd p) '/' = false := by
  rw [basenameMd]
  split
  · rw [Bool.eq_false_iff]
    intro h
    rw [containsChar_iff_mem] at h
    rw [dropRightStr] at h
    simp only at h
    have h2 := (List.take_sublist _ _).mem h
    have h3 : containsChar (posixBasename p) '/' = true :=
      containsChar_iff_mem.2 h2
    rw [containsChar_posixBasename_slash] at h3
    cases h3
  · exact containsChar_posixBasename_slash p

lemma mem_fileNameKeysLower {files : List VaultFile} {x : String} :
    x ∈ fileNameKeysLower files ↔
      ∃ f ∈ files, x = lowerStr (basenameMd f.relativePath) ∨
        x = lowerStr (stripMd f.relativePath) := by
  simp [fileNameKeysLower, List.mem_flatMap]

lemma mem_fileRelPaths {files : List VaultFile} {x : String} :
    x ∈ fileRelPaths files ↔
      ∃ f ∈ files, x = f.relativePath ∨ x = lowerStr f.relativePath := by
  simp [fileRelPaths, List.mem_flatMap]

lemma relPathsCheck_iff {files : List VaultFile} {w : String} :
    (((fileRelPaths files).contains w ||
        (fileRelPaths files).contains (lowerStr w)) = true) ↔
      ∃ f ∈ files, lowerStr f.relativePath = lowerStr w := by
  rw [Bool.or_eq_true]
  constructor
  · rintro (h | h)
    · rw [List.contains, List.elem_iff] at h
      obtain ⟨f, hf, hfw | hfw⟩ := mem_fileRelPaths.1 h
      · exact ⟨f, hf, by rw [hfw]⟩
      · exact ⟨f, hf, by rw [hfw, lowerStr_idem]⟩
    · rw [List.contains, List.elem_iff] at h
      obtain ⟨f, hf, hfw | hfw⟩ := mem_fileRelPaths.1 h
      · exact ⟨f, hf, by rw [← hfw, lowerStr_idem]⟩
      · exact ⟨f, hf, hfw.symm⟩
  · rintro ⟨f, hf, hfw⟩
    right
    rw [List.contains, List.elem_iff]
    exact mem_fileRelPaths.2 ⟨f, hf, Or.inr hfw.symm⟩

lemma relPaths4_iff {files : List VaultFile} {w1 w2 : String} :
    (((fileRelPaths files).contains w1 ||
        (fileRelPaths files).contains (lowerStr w1) ||
        (fileRelPaths files).contains w2 ||
        (fileRelPaths files).contains (lowerStr w2)) = true) ↔
      (∃ f ∈ files, lowerStr f.relativePath = lowerStr w1) ∨
      (∃ f ∈ files, lowerStr f.relativePath = lowerStr w2) := by
  rw [← relPathsCheck_iff (w := w1), ← relPathsCheck_iff (w := w2)]
  simp only [Bool.or_eq_true]
  tauto

lemma basename_key_impossible {t : String}
    (Ht1 : containsChar t '/' = true) {f : VaultFile}
    (hd : lowerStr t = lowerStr (basenameMd f.relativePath)) : False := by
  have h1 : containsChar (lowerStr t) '/' = true := by
    rw [containsChar_lowerStr_slash, Ht1]
  rw [hd, containsChar_lowerStr_slash, containsChar_basenameMd_slash f.relativePath]
    at h1
  cases h1

/-- The resolution of a hash-free, slash-containing target with no filesystem
probe: it succeeds exactly when a document exists at the corresponding
relative path, compared case-insensitively. -/
lemma resolveLink_pathStyle_valid_iff (files : List VaultFile) (t : String)
    (H1 : ∀ f ∈ files, strEndsWith f.relativePath ".md" = true)
    (H2 : ∀ f ∈ files, strEndsWith (lowerStr (stripMd f.relativePath)) ".md" = false)
    (Ht1 : containsChar t '/' = true)
    (Ht2 : containsChar t '#' = false)
    (Ht3 : strEndsWith t ".md" = true →
      strEndsWith (lowerStr (stripMd t)) ".md" = false)
    (Ht4 : strEndsWith (lowerStr t) ".md" = true → strEndsWith t ".md" = true) :
    (resolveLink files none t).valid = true ↔
      ∃ f ∈ files, lowerStr f.relativePath = lowerStr (ensureMd t) := by
  rw [resolveLink, if_neg (by rw [Ht2]; exact Bool.false_ne_true)]
  by_cases hc1 : (fileNameKeysLower files).contains (lowerStr t) = true
  · have hvalid : (resolveLinkPlain files none t).valid = true := by
      rw [resolveLinkPlain]
      simp only [if_pos hc1]
      cases hsl : containsChar t '/' <;> simp [hsl]
    rw [hvalid]
    simp only [true_iff]
    rw [List.contains, List.elem_iff] at hc1
    obtain ⟨f, hf, hd | hd⟩ := mem_fileNameKeysLower.1 hc1
    · exact absurd hd (fun hd => basename_key_impossible Ht1 hd)
    · refine ⟨f, hf, ?_⟩
      by_cases hmd : strEndsWith t ".md" = true
      · exfalso
        have hstriplow : strEndsWith (lowerStr (stripMd f.relativePath)) ".md" =
            true := by
          rw [← hd]
          exact lowerStr_endsWith_md hmd
        rw [H2 f hf] at hstriplow
        cases hstriplow
      · rw [ensureMd, if_neg hmd]
        exact (lowerStr_eq_iff_strip (H1 f hf)).1 hd.symm
  · rw [resolveLinkPlain]
    simp only [if_neg hc1, if_pos Ht1]
    by_cases hmd : strEndsWith t ".md" = true
    · simp only [if_pos hmd]
      have hens : ensureMd t = t := by rw [ensureMd, if_pos hmd]
      rw [hens]
      by_cases hc2 : ((fileRelPaths files).contains t ||
          (fileRelPaths files).contains (lowerStr t) ||
          (fileRelPaths files).contains (dropRightStr t 3) ||
          (fileRelPaths files).contains (lowerStr (dropRightStr t 3))) = true
      · rw [if_pos hc2]
        simp only [true_iff, Resolution.valid]
        rcases relPaths4_iff.1 hc2 with h | h
        · exact h
        · exfalso
          obtain ⟨f, hf, hfw⟩ := h
          have hle : strEndsWith (lowerStr f.relativePath) ".md" = true :=
            lowerStr_endsWith_md (H1 f hf)
          have hstrip : stripMd t = dropRightStr t 3 := by
            rw [stripMd, if_pos hmd]
          rw [hfw, ← hstrip, Ht3 hmd] at hle
          cases hle
      · rw [if_neg hc2]
        simp only [Resolution.valid]
        constructor
        · intro habs
          cases habs
        · rintro ⟨f, hf, hfw⟩
          exfalso
          exact hc2 (relPaths4_iff.2 (Or.inl ⟨f, hf, hfw⟩))
    · simp only [if_neg hmd]
      have hens : ensureMd t = t ++ ".md" := by rw [ensureMd, if_neg hmd]
      rw [hens]
      by_cases hc2 : ((fileRelPaths files).contains (t ++ ".md") ||
          (fileRelPaths files).contains (lowerStr (t ++ ".md")) ||
          (fileRelPaths files).contains t ||
          (fileRelPaths files).contains (lowerStr t)) = true
      · rw [if_pos hc2]
        simp only [true_iff, Resolution.valid]
        rcases relPaths4_iff.1 hc2 with h | h
        · exact h
        · exfalso
          obtain ⟨f, hf, hfw⟩ := h
          have hle : strEndsWith (lowerStr f.relativePath) ".md" = true :=
            lowerStr_endsWith_md (H1 f hf)
          rw [hfw] at hle
          exact absurd (Ht4 hle) hmd
      · rw [if_neg hc2]
        simp only [Resolution.valid]
        constructor
        · intro habs
          cases habs
        · rintro ⟨f, hf, hfw⟩
          exfalso
          exact hc2 (relPaths4_iff.2 (Or.inl ⟨f, hf, hfw⟩))

lemma resolveLink_slash_shape (files : List VaultFile) (t : String)
    (Ht1 : containsChar t '/' = true) (Ht2 : containsChar t '#' = false)
    (hv : (resolveLink files none t).valid = true) :
    resolveLink files none t = ⟨true, true, some (posixBasename (stripMd t))⟩ := by
  rw [resolveLink, if_neg (by rw [Ht2]; exact Bool.false_ne_true)] at hv ⊢
  rw [resolveLinkPlain] at hv ⊢
  by_cases hc1 : (fileNameKeysLower files).contains (lowerStr t) = true
  · simp only [if_pos hc1] at hv ⊢
    rw [if_pos Ht1]
    rfl
  · simp only [if_neg hc1, if_pos Ht1] at hv ⊢
    by_cases hmd : strEndsWith t ".md" = true
    · simp only [if_pos hmd] at hv ⊢
      by_cases hc2 : ((fileRelPaths files).contains t ||
          (fileRelPaths files).contains (lowerStr t) ||
          (fileRelPaths files).contains (dropRightStr t 3) ||
          (fileRelPaths files).contains (lowerStr (dropRightStr t 3))) = true
      · rw [if_pos hc2]
        simp only [Resolution.mk.injEq]
        refine ⟨trivial, trivial, ?_⟩
        rw [stripMd, if_pos hmd]
      · rw [if_neg hc2] at hv
        cases hv
    · simp only [if_neg hmd] at hv ⊢
      by_cases hc2 : ((fileRelPaths files).contains (t ++ ".md") ||
          (fileRelPaths files).contains (lowerStr (t ++ ".md")) ||
          (fileRelPaths files).contains t ||
          (fileRelPaths files).contains (lowerStr t)) = true
      · rw [if_pos hc2]
        simp only [Resolution.mk.injEq]
        refine ⟨trivial, trivial, ?_⟩
        rw [stripMd, if_neg hmd]
      · rw [if_neg hc2] at hv
        cases hv

lemma pathStyleLinks_count (files : List VaultFile)
    (hnd : (files.map (·.relativePath)).Nodup) (t : String)
    (Ht1 : containsChar t '/' = true) (Ht2 : containsChar t '#' = false)
    (hbn : posixBasename (stripMd t) ≠ "") (f0 : VaultFile) (hf0 : f0 ∈ files) :
    ((analyzeLinks files none).pathStyleLinks.count
        ⟨f0.relativePath, t, posixBasename (stripMd t)⟩) =
      if (resolveLink files none t).valid = true then f0.wikilinks.count t
      else 0 := by
  set E0 : PathStyleLink := ⟨f0.relativePath, t, posixBasename (stripMd t)⟩ with hE0
  set entry : VaultFile → String → Option PathStyleLink := fun f l =>
    let r := resolveLink files none l
    if r.valid then
      match r.suggestedName with
      | some s => if r.pathStyle && s ≠ "" then some ⟨f.relativePath, l, s⟩ else none
      | none => none
    else none with hentry
  have hps : (analyzeLinks files none).pathStyleLinks =
      files.flatMap (fun f => f.wikilinks.filterMap (entry f)) := rfl
  rw [hps]
  have hsrc : ∀ f l e, entry f l = some e → e.source = f.relativePath ∧
      e.target = l := by
    intro f l e he
    rw [hentry] at he
    simp only at he
    split at he
    · split at he
      · split at he
        · cases he
          exact ⟨rfl, rfl⟩
        · cases he
      · cases he
    · cases he
  have hentry_t : entry f0 t =
      if (resolveLink files none t).valid = true then some E0 else none := by
    rw [hentry]
    by_cases hv : (resolveLink files none t).valid = true
    · rw [if_pos hv]
      have hshape := resolveLink_slash_shape files t Ht1 Ht2 hv
      simp only [hshape]
      simp [hbn, hE0]
    · rw [if_neg hv]
      simp only
      rw [if_neg (by simpa using hv)]
  have hcount_f0 : ∀ ws : List String,
      ((ws.filterMap (entry f0)).count E0) =
        if (resolveLink files none t).valid = true then ws.count t else 0 := by
    intro ws
    induction ws with
    | nil => simp
    | cons l ls ih =>
        rw [List.filterMap_cons]
        by_cases hlt : l = t
        · subst hlt
          rw [hentry_t]
          by_cases hv : (resolveLink files none l).valid = true
          · simp only [if_pos hv] at ih ⊢
            rw [List.count_cons_self, List.count_cons_self, ih]
          · simp only [if_neg hv] at ih ⊢
            exact ih
        · have htarget_ne : ∀ e, entry f0 l = some e → e ≠ E0 := by
            intro e he habs
            have := (hsrc f0 l e he).2
            rw [habs, hE0] at this
            exact hlt this.symm
          rcases he : entry f0 l with _ | e
          · simp only [he]
            rw [ih]
            by_cases hv : (resolveLink files none t).valid = true
            · rw [if_pos hv, if_pos hv, List.count_cons_of_ne (fun h => hlt h.symm)]
            · rw [if_neg hv, if_neg hv]
          · simp only [he]
            rw [List.count_cons_of_ne (fun h => (htarget_ne e he) h.symm), ih]
            by_cases hv : (resolveLink files none t).valid = true
            · rw [if_pos hv, if_pos hv, List.count_cons_of_ne (fun h => hlt h.symm)]
            · rw [if_neg hv, if_neg hv]
  have hflat : ∀ fs : List VaultFile, (fs.map (·.relativePath)).Nodup → f0 ∈ fs →
      ((fs.flatMap (fun f => f.wikilinks.filterMap (entry f))).count E0) =
        (f0.wikilinks.filterMap (entry f0)).count E0 := by
    intro fs
    induction fs with
    | nil => intro _ h; simp at h
    | cons g gs ih =>
        intro hnd2 hmem
        rw [List.flatMap_cons, List.count_append]
        rw [List.map_cons, List.nodup_cons] at hnd2
        rcases List.mem_cons.1 hmem with rfl | hmem2
        · have hrest : ((gs.flatMap
              (fun f => f.wikilinks.filterMap (entry f))).count E0) = 0 := by
            rw [List.count_eq_zero]
            intro habs
            obtain ⟨h, hh, hmem3⟩ := List.mem_flatMap.1 habs
            obtain ⟨l, -, hl⟩ := List.mem_filterMap.1 hmem3
            have hsrcE := (hsrc h l E0 hl).1
            have heq : f0.relativePath = h.relativePath := hsrcE
            apply hnd2.1
            rw [heq]
            exact List.mem_map.2 ⟨h, hh, rfl⟩
          rw [hrest]
          omega
        · have hgne : g.relativePath ≠ f0.relativePath := by
            intro habs
            apply hnd2.1
            rw [habs]
            exact List.mem_map.2 ⟨f0, hmem2, rfl⟩
          have hzero : ((g.wikilinks.filterMap (entry g)).count E0) = 0 := by
            rw [List.count_eq_zero]
            intro habs
            obtain ⟨l, -, hl⟩ := List.mem_filterMap.1 habs
            have := (hsrc g l E0 hl).1
            rw [hE0] at this
            exact hgne this.symm
          rw [hzero, ih hnd2.2 hmem2]
          omega
  rw [hflat files hnd hf0, hcount_f0]

/-- C5: with no filesystem probe, a path-style wikilink target (one containing
a slash and no section marker) resolves if and only if some document's relative
path equals the target with a `.md` extension ensured, case-insensitively; and
each document's occurrences of such a target are reported in pathStyleLinks
exactly once per occurrence — with source the containing document, target the
raw link, and suggestedName the basename of the target with the extension
stripped — when the target resolves, and never when it does not.  The side
conditions exclude vault paths or targets whose lowercased extension-stripped
form still ends in ".md" (double extensions, or an uppercase ".MD" that
lowercasing alone would reveal), and require a nonempty basename and distinct
vault paths. -/
theorem analyzeLinks_pathStyle_resolution (files : List VaultFile) (t : String)
    (hnd : (files.map (·.relativePath)).Nodup)
    (H1 : ∀ f ∈ files, strEndsWith f.relativePath ".md" = true)
    (H2 : ∀ f ∈ files, strEndsWith (lowerStr (stripMd f.relativePath)) ".md" = false)
    (Ht1 : containsChar t '/' = true)
    (Ht2 : containsChar t '#' = false)
    (Ht3 : strEndsWith t ".md" = true →
      strEndsWith (lowerStr (stripMd t)) ".md" = false)
    (Ht4 : strEndsWith (lowerStr t) ".md" = true → strEndsWith t ".md" = true)
    (hbn : posixBasename (stripMd t) ≠ "")
    (f0 : VaultFile) (hf0 : f0 ∈ files) :
    ((resolveLink files none t).valid = true ↔
      ∃ f ∈ files, lowerStr f.relativePath = lowerStr (ensureMd t)) ∧
    ((analyzeLinks files none).pathStyleLinks.count
        ⟨f0.relativePath, t, posixBasename (stripMd t)⟩ =
      if (resolveLink files none t).valid = true then f0.wikilinks.count t
      else 0) :=
  ⟨resolveLink_pathStyle_valid_iff files t H1 H2 Ht1 Ht2 Ht3 Ht4,
   pathStyleLinks_count files hnd t Ht1 Ht2 hbn f0 hf0⟩

/-- Witness for C5 at a concrete two-document vault: A.md links [[dir/Name]]
and dir/Name.md exists. -/
theorem analyzeLinks_pathStyle_resolution_witness :
    ((resolveLink [⟨"dir/Name.md", "", 0, []⟩, ⟨"A.md", "[[dir/Name]]", 2, ["dir/Name"]⟩]
        none "dir/Name").valid = true ↔
      ∃ f ∈ [(⟨"dir/Name.md", "", 0, []⟩ : VaultFile),
             ⟨"A.md", "[[dir/Name]]", 2, ["dir/Name"]⟩],
        lowerStr f.relativePath = lowerStr (ensureMd "dir/Name")) ∧
    ((analyzeLinks [⟨"dir/Name.md", "", 0, []⟩, ⟨"A.md", "[[dir/Name]]", 2, ["dir/Name"]⟩]
        none).pathStyleLinks.count
        ⟨"A.md", "dir/Name", posixBasename (stripMd "dir/Name")⟩ =
      if (resolveLink [⟨"dir/Name.md", "", 0, []⟩, ⟨"A.md", "[[dir/Name]]", 2, ["dir/Name"]⟩]
          none "dir/Name").valid = true
      then (["dir/Name"] : List String).count "dir/Name" else 0) :=
  analyzeLinks_pathStyle_resolution
    [⟨"dir/Name.md", "", 0, []⟩, ⟨"A.md", "[[dir/Name]]", 2, ["dir/Name"]⟩]
    "dir/Name" (by decide) (by decide) (by decide) (by decide) (by decide)
    (by decide) (by decide) (by decide)
    ⟨"A.md", "[[dir/Name]]", 2, ["dir/Name"]⟩ (by decide)

end VaultMind
